import Mathlib

/-!
Verification of the SubGen subtitle generator's pure core against its
natural-language specification.

The Python sources are shallowly embedded: Python strings become `List Char`
(named `Str` below), Python dictionaries with fixed keys become structures or
association lists, floating-point times are represented exactly at the
microsecond precision that `datetime.timedelta` itself uses, and the
network/thread effects of the translation service and the transcription worker
are represented by explicit oracles and an event trace.
-/

/-- Python strings are modelled as lists of characters. -/
abbrev Str := List Char

/-- ASCII whitespace, as stripped by Python's `str.strip()` / `str.split()`
(the embedding restricts Python's unicode whitespace set to its ASCII part,
which is all that subtitle data contains). -/
def isPyWs (c : Char) : Bool :=
  c = ' ' || c = '\t' || c = '\n' || c = '\r' || c = '\x0b' || c = '\x0c'

/-- Embedding of Python `str.strip()` (no argument): drop whitespace from both
ends. -/
def pyStrip (s : Str) : Str :=
  ((s.dropWhile isPyWs).reverse.dropWhile isPyWs).reverse

/-- Embedding of Python `str.replace(a, b)` for single-character `a`, `b`. -/
def replaceChar (a b : Char) (s : Str) : Str :=
  s.map (fun c => if c = a then b else c)

/-- Embedding of Python `str.split(sep)` for a single-character separator. -/
def splitChar (sep : Char) : Str → List Str
  | [] => [[]]
  | c :: rest =>
    if c = sep then [] :: splitChar sep rest
    else
      match splitChar sep rest with
      | [] => [[c]]
      | h :: t => (c :: h) :: t

/-- Embedding of Python `str.split("\n\n")`: split on two consecutive
newlines, scanning left to right without overlap. -/
def splitNN : Str → List Str
  | [] => [[]]
  | '\n' :: '\n' :: rest => [] :: splitNN rest
  | c :: rest =>
    match splitNN rest with
    | [] => [[c]]
    | h :: t => (c :: h) :: t

/-- Embedding of Python `sep.join(parts)` for a single-character separator. -/
def joinSep (sep : Char) : List Str → Str
  | [] => []
  | [x] => x
  | x :: y :: t => x ++ sep :: joinSep sep (y :: t)

/-- Embedding of Python `str.ljust(w, fill)`. -/
def pyLjust (w : Nat) (fill : Char) (s : Str) : Str :=
  s ++ List.replicate (w - s.length) fill

/-- Embedding of Python `str.rjust(w, fill)`. -/
def pyRjust (w : Nat) (fill : Char) (s : Str) : Str :=
  List.replicate (w - s.length) fill ++ s

/-- The character for a single decimal digit. -/
def digitChar (n : Nat) : Char := Char.ofNat (48 + n)

/-- Big-endian decimal digit characters of `n` (empty for 0), computed with
structural recursion on a fuel argument so that the kernel can evaluate it. -/
def digitsBE : Nat → Nat → Str
  | _, 0 => []
  | 0, _ + 1 => []
  | fuel + 1, n + 1 => digitsBE fuel ((n + 1) / 10) ++ [digitChar ((n + 1) % 10)]

/-- Decimal rendering of a natural number, as Python `str(n)` / `f"{n}"`
produces it. -/
def digitChars (n : Nat) : Str :=
  if n = 0 then ['0'] else digitsBE n n

/-- Embedding of Python's `f"{n:0wd}"` zero-padded formatting for `n ≥ 0`. -/
def padNum (w : Nat) (n : Nat) : Str := pyRjust w '0' (digitChars n)

/-- Numeric value of a decimal digit character. -/
def digitVal (c : Char) : Nat := c.toNat - 48

/-- Value of a big-endian string of decimal digit characters. -/
def digitsToNat (s : Str) : Nat := s.foldl (fun acc c => 10 * acc + digitVal c) 0

/-- Recognizer for ASCII decimal digit characters. -/
def isDigitChar (c : Char) : Bool := 48 ≤ c.toNat && c.toNat ≤ 57

/-- Checks that a list has no two consecutive underscore characters. -/
def noDoubleUnderscore : Str → Bool
  | [] => true
  | [_] => true
  | a :: b :: r => !(a = '_' && b = '_') && noDoubleUnderscore (b :: r)

/-- Validity of the digit part accepted by Python `int()`: nonempty, made of
digits and underscores, with underscores only between digits. -/
def validDigitPart (s : Str) : Bool :=
  !s.isEmpty && s.all (fun c => isDigitChar c || c = '_')
    && isDigitChar (s.headI) && isDigitChar (s.getLastI)
    && noDoubleUnderscore s

/-- Parses the digit part of a Python integer literal (underscores allowed
between digits). -/
def parseDigitPart (s : Str) : Option Nat :=
  if validDigitPart s then some (digitsToNat (s.filter (fun c => c ≠ '_'))) else none

/-- Embedding of Python `int(s)` on strings: strips whitespace, allows an
optional sign, then decimal digits; `none` models the `ValueError` raised on
anything else. -/
def pyInt (s : Str) : Option Int :=
  let t := pyStrip s
  if t.headI = '+' then (parseDigitPart t.tail).map Int.ofNat
  else if t.headI = '-' then (parseDigitPart t.tail).map (fun n => -(n : Int))
  else (parseDigitPart t).map Int.ofNat

/-- One subtitle segment record `{start, end, text}` as built by the worker
and consumed by the editor and the format converters.  The Python key `end`
is a Lean keyword, so the field is called `endT`. -/
structure Segment where
  start : Str
  endT : Str
  text : Str
deriving DecidableEq, Repr

/-- The `start --> end` timing line of a segment's SRT block. -/
def timingLine (s : Segment) : Str := s.start ++ (" --> ".data ++ s.endT)

/-- The body of a segment's SRT block (index line, timing line, text),
without the terminating blank line. -/
def srtBody (idx : Nat) (s : Segment) : Str :=
  digitChars idx ++ ('\n' :: (timingLine s ++ ('\n' :: s.text)))

/-- Single SRT block emitted for the segment with 1-based index `idx`
(`SubtitleEditor.get_srt_content` body of the loop in `components.py`). -/
def srtBlock (idx : Nat) (s : Segment) : Str :=
  srtBody idx s ++ "\n\n".data

/-- Embedding of `SubtitleEditor.get_srt_content` (`components.py`): serialize
segments as SRT, one block per segment with a 1-based index line. -/
def get_srt_content (segs : List Segment) : Str :=
  ((List.enumFrom 1 segs).map (fun p => srtBlock p.1 p.2)).flatten

/-- Conversion of one SRT block in `save_srt_to_vtt`: blank blocks and blocks
of fewer than 3 lines contribute nothing; otherwise the index line is
dropped, commas in the timing line become dots, and the remaining lines are
kept as text. -/
def vttOfBlock (block : Str) : Str :=
  if pyStrip block = [] then []
  else if 3 ≤ (splitChar '\n' block).length then
    replaceChar ',' '.' ((splitChar '\n' block).getD 1 []) ++
      ('\n' :: (joinSep '\n' ((splitChar '\n' block).drop 2) ++ "\n\n".data))
  else []

/-- Embedding of `save_srt_to_vtt` (`utils.py`): prepend the `WEBVTT` header
and convert each blank-line-separated block. -/
def save_srt_to_vtt (srt : Str) : Str :=
  "WEBVTT\n\n".data ++ ((splitNN srt).map vttOfBlock).flatten

/-- The seconds field of `validate_timestamp`: Python
`int(parts[2].replace(",", ".").split(".")[0])`. -/
def secondsField (p2 : Str) : Option Int :=
  pyInt ((splitChar '.' (replaceChar ',' '.' p2)).headI)

/-- The millisecond text kept by `validate_timestamp`: the chunk after the
first comma (or, failing that, the first dot), left-justified with zeros and
truncated to 3 characters; `"000"` when no separator is present. -/
def msField (p2 : Str) : Str :=
  if p2.contains ',' then (pyLjust 3 '0' ((splitChar ',' p2).getD 1 [])).take 3
  else if p2.contains '.' then (pyLjust 3 '0' ((splitChar '.' p2).getD 1 [])).take 3
  else "000".data

/-- Embedding of `validate_timestamp` (`utils.py`): split on colons, parse the
three numeric fields, range-check them, and rebuild the zero-padded
comma-separated form; `none` models every path that returns `None` (wrong
number of parts, `ValueError` from `int()`, range violation). -/
def validate_timestamp (ts : Str) : Option Str :=
  if (splitChar ':' ts).length = 3 then
    (pyInt ((splitChar ':' ts).getD 0 [])).bind fun hours =>
    (pyInt ((splitChar ':' ts).getD 1 [])).bind fun minutes =>
    (secondsField ((splitChar ':' ts).getD 2 [])).bind fun seconds =>
    if 0 ≤ hours ∧ 0 ≤ minutes ∧ minutes < 60 ∧ 0 ≤ seconds ∧ seconds < 60 then
      some (padNum 2 hours.toNat ++
            (':' :: (padNum 2 minutes.toNat ++
              (':' :: (padNum 2 seconds.toNat ++
                (',' :: msField ((splitChar ':' ts).getD 2 [])))))))
    else none
  else none

/-- The parsing stage of `validate_timestamp` in isolation, used to state
claim C6's characterization of when the function rejects its input. -/
def tsFields (ts : Str) : Option (Int × Int × Int) :=
  if (splitChar ':' ts).length = 3 then
    (pyInt ((splitChar ':' ts).getD 0 [])).bind fun h =>
    (pyInt ((splitChar ':' ts).getD 1 [])).bind fun m =>
    (secondsField ((splitChar ':' ts).getD 2 [])).bind fun s =>
    some (h, m, s)
  else none

/-- Worker for `pySplitWs`, accumulating the current word reversed. -/
def pySplitWsAux : Str → Str → List Str
  | [], cur => if cur.isEmpty then [] else [cur.reverse]
  | c :: rest, cur =>
    if isPyWs c then
      (if cur.isEmpty then pySplitWsAux rest [] else cur.reverse :: pySplitWsAux rest [])
    else pySplitWsAux rest (c :: cur)

/-- Embedding of Python `str.split()` with no argument: split on runs of
whitespace, discarding empty pieces. -/
def pySplitWs (s : Str) : List Str := pySplitWsAux s []

/-- Digit-string check for `pyFloat` pieces. -/
def allDigits (s : Str) : Bool := s.all isDigitChar

/-- Mantissa of a Python float literal: `digits`, `digits.`, `.digits` or
`digits.digits`, valued as a rational. -/
def pyFloatMantissa (s : Str) : Option ℚ :=
  match splitChar '.' s with
  | [a] => if !a.isEmpty && allDigits a then some ((digitsToNat a : ℚ)) else none
  | [a, b] =>
    if (!a.isEmpty || !b.isEmpty) && allDigits a && allDigits b then
      some ((digitsToNat a : ℚ) + (digitsToNat b : ℚ) / (10 : ℚ) ^ b.length)
    else none
  | _ => none

/-- Unsigned part of a Python float literal, with an optional decimal
exponent. -/
def pyFloatCore (s : Str) : Option ℚ :=
  match s.findIdx? (fun c => c = 'e' || c = 'E') with
  | none => pyFloatMantissa s
  | some i =>
    let mant := s.take i
    let ex := s.drop (i + 1)
    let signedEx : Option Int :=
      match ex with
      | '+' :: r => if !r.isEmpty && allDigits r then some ((digitsToNat r : Int)) else none
      | '-' :: r => if !r.isEmpty && allDigits r then some (-(digitsToNat r : Int)) else none
      | r => if !r.isEmpty && allDigits r then some ((digitsToNat r : Int)) else none
    match pyFloatMantissa mant, signedEx with
    | some m, some e => some (m * (10 : ℚ) ^ e)
    | _, _ => none

/-- Embedding of Python `float(s)` on finite decimal notation (the `inf` /
`nan` spellings do not occur in subtitle data and are not modelled). `none`
models the `ValueError` on malformed input. -/
def pyFloat (s : Str) : Option ℚ :=
  match pyStrip s with
  | '+' :: r => pyFloatCore r
  | '-' :: r => (pyFloatCore r).map Neg.neg
  | r => pyFloatCore r

/-- The `H:MM:SS[,.]frac → seconds` conversion used by
`calculate_reading_speed` (and `get_subtitle_stats`):
`int(parts[0])*3600 + int(parts[1])*60 + float(parts[2].replace(",", "."))`.
Requires at least three colon-separated parts (an `IndexError` is caught by
the bare `except`). -/
def hmsToSeconds (s : Str) : Option ℚ :=
  let parts := splitChar ':' s
  if 3 ≤ parts.length then
    match pyInt (parts.getD 0 []), pyInt (parts.getD 1 []),
          pyFloat (replaceChar ',' '.' (parts.getD 2 [])) with
    | some h, some m, some sec => some ((h : ℚ) * 3600 + (m : ℚ) * 60 + sec)
    | _, _, _ => none
  else none

/-- Duration of one segment in `calculate_reading_speed`; `none` models the
caught exception (the segment is then skipped). -/
def segDuration (s : Segment) : Option ℚ :=
  match hmsToSeconds s.start, hmsToSeconds s.endT with
  | some a, some b => some (b - a)
  | _, _ => none

/-- Embedding of `calculate_reading_speed` (`utils.py`).  The returned Python
dictionary is modelled as an association list from key to rational value.
Note the empty-input branch returns different keys than the main branch,
exactly as the source does. -/
def calculate_reading_speed (subtitle_segments : List Segment)
    (total_duration : Option ℚ) : List (String × ℚ) :=
  if subtitle_segments.isEmpty then
    [("avg_speed", 0), ("total_chars", 0), ("total_words", 0), ("total_duration", 0)]
  else
    let total_chars : ℚ := ((subtitle_segments.map (fun s => s.text.length)).sum : ℕ)
    let total_words : ℚ := ((subtitle_segments.map (fun s => (pySplitWs s.text).length)).sum : ℕ)
    let tsd : ℚ := (subtitle_segments.filterMap segDuration).sum
    let cps : ℚ := if 0 < tsd then total_chars / tsd else 0
    let wpm : ℚ := if 0 < tsd then total_words / tsd * 60 else 0
    [("avg_speed_cps", cps), ("avg_speed_wpm", wpm), ("total_chars", total_chars),
     ("total_words", total_words), ("total_speaking_duration", tsd),
     ("total_duration", match total_duration with
                        | some v => if v = 0 then tsd else v
                        | none => tsd)]

/-- A parsed JSON value as `response.json()` can yield it on HTTP 200.  The
code only ever reads the single field `"translatedText"`, so a JSON object is
kept as its string-keyed, string-valued fields (a non-string key or value
never equals, respectively is returned as, the looked-up string and changes
nothing the code observes); a JSON array is kept as its string elements (the
only ones `"translatedText" in result` can compare equal); a JSON string is
kept verbatim (`in` becomes a substring test on it); `null`, numbers and
booleans are not iterable, so `in` itself raises `TypeError` on them. -/
inductive JsonBody where
  | obj : List (Str × Str) → JsonBody
  | arr : List Str → JsonBody
  | jstr : Str → JsonBody
  | nonIterable : JsonBody

/-- Outcome of one `requests.post` to a translation endpoint, from the
caller's point of view: either an exception that
`except requests.RequestException` absorbs (timeouts, connection errors and —
with the `requests` versions this project installs — JSON decode errors), or
a response with a status code and a parsed JSON body. -/
inductive NetResult where
  | exn : NetResult
  | resp : Nat → JsonBody → NetResult

/-- First-match lookup in a JSON object, as Python `result["translatedText"]`
guarded by `"translatedText" in result`. -/
def lookupField (k : Str) : List (Str × Str) → Option Str
  | [] => none
  | (k', v) :: rest => if k' = k then some v else lookupField k rest

/-- What one iteration of the endpoint loop in `translate_text` does with a
server's outcome: return a translation, fall through to the next server, or
raise an uncaught `TypeError`.  Only `requests.RequestException` is caught,
so a 200 response whose body is not a JSON object escapes the handler
whenever the `in` test raises (non-iterable body) or passes and integer-only
indexing then fails (array containing the key, string containing it as a
substring). -/
inductive Attempt where
  | success : Str → Attempt
  | fallthrough : Attempt
  | raised : Attempt
deriving DecidableEq

/-- Python substring membership `key in s` on strings: true exactly when
`key` occurs contiguously in `s`. -/
def strContains (key : Str) : Str → Bool
  | [] => key.isEmpty
  | c :: rest => key.isPrefixOf (c :: rest) || strContains key rest

/-- One iteration of the endpoint loop in `translate_text`: on HTTP 200,
`result = response.json()` followed by `if "translatedText" in result:
return result["translatedText"]`; on a caught exception or non-200 status,
fall through to the next server. -/
def attemptResult (r : NetResult) : Attempt :=
  match r with
  | .exn => .fallthrough
  | .resp status body =>
    if status = 200 then
      match body with
      | .obj fields =>
        match lookupField "translatedText".data fields with
        | some t => .success t
        | none => .fallthrough
      | .arr elems =>
        if elems.contains "translatedText".data then .raised else .fallthrough
      | .jstr s =>
        if strContains "translatedText".data s then .raised else .fallthrough
      | .nonIterable => .raised
    else .fallthrough

/-- The fixed ordered endpoint list `TranslationService.SERVERS`. -/
def SERVERS : List Str :=
  ["https://translate.argosopentech.com".data, "https://libretranslate.de".data,
   "https://translate.terraprint.co".data, "https://lt.vern.cc".data]

/-- What a call to `translate_text` does overall: return a string normally,
or let an uncaught `TypeError` propagate to the caller. -/
inductive TTResult where
  | ok : Str → TTResult
  | typeError : TTResult
deriving DecidableEq

/-- The endpoint loop of `translate_text`: walk the servers in order until an
iteration returns or raises, collecting the list of servers contacted.
`net i` is the outcome of posting to server `i`. -/
def tryServersTr (net : Nat → NetResult) : List Nat → Option TTResult × List Nat
  | [] => (none, [])
  | i :: rest =>
    match attemptResult (net i) with
    | .success t => (some (.ok t), [i])
    | .raised => (some .typeError, [i])
    | .fallthrough =>
      let o := tryServersTr net rest
      (o.1, i :: o.2)

/-- Embedding of `TranslationService.translate_text` (`transcription.py`).
The target language only shapes the request payload, so it is folded into the
outcome oracle `net`.  Blank input short-circuits; if every server falls
through the original text is returned; a `TypeError` raised inside the loop
escapes the function. -/
def translate_text (net : Nat → NetResult) (text : Str) : TTResult :=
  if pyStrip text = [] then .ok text
  else
    match (tryServersTr net (List.range SERVERS.length)).1 with
    | some r => r
    | none => .ok text

/-- The servers actually contacted by `translate_text`, in order. -/
def translate_text_contacted (net : Nat → NetResult) (text : Str) : List Nat :=
  if pyStrip text = [] then [] else (tryServersTr net (List.range SERVERS.length)).2

/-- An environment in which endpoint 0 answers HTTP 200 with the JSON body
`null` and every later endpoint answers HTTP 200 with a well-formed object
carrying a translation. -/
def nullBodyNet : Nat → NetResult :=
  fun i => if i = 0 then NetResult.resp 200 JsonBody.nonIterable
           else NetResult.resp 200 (JsonBody.obj [("translatedText".data, "hola".data)])

/-- Worker for `translate_batch`, walking the list with its index.  The
Python implementation copies the input list and overwrites each non-blank
index with its future's result (or leaves the original on an exception);
because every future writes a distinct index, completion order is irrelevant
and the result is this index-wise map.  `f i t = none` models the `except
Exception` branch for index `i`. -/
def translateBatchAux (f : Nat → Str → Option Str) : Nat → List Str → List Str
  | _, [] => []
  | i, t :: rest =>
    (if pyStrip t = [] then t
     else match f i t with
          | some r => r
          | none => t) :: translateBatchAux f (i + 1) rest

/-- Embedding of `TranslationService.translate_batch` (`transcription.py`).
The `max_workers` argument only affects scheduling, not the value. -/
def translate_batch (f : Nat → Str → Option Str) (texts : List Str) : List Str :=
  translateBatchAux f 0 texts

/-- One raw Whisper segment as `_process_segments` consumes it.  The float
`start` / `end` seconds are represented exactly as the microsecond count that
`datetime.timedelta(seconds=x)` stores (timedelta rounds the float to whole
microseconds, so this loses nothing). -/
structure RawSeg where
  start : Nat
  endT : Nat
  text : Str
deriving DecidableEq, Repr

/-- The `H:MM:SS[.ffffff]` part of Python `str(timedelta(...))`: hours
unpadded, microseconds printed only when nonzero. -/
def strTimedeltaCore (us : Nat) : Str :=
  digitChars (us % 86400000000 / 3600000000) ++
    (':' :: (padNum 2 (us % 3600000000 / 60000000) ++
      (':' :: (padNum 2 (us % 60000000 / 1000000) ++
        (if us % 1000000 = 0 then [] else '.' :: padNum 6 (us % 1000000))))))

/-- Embedding of Python `str(timedelta(...))` for nonnegative values:
`[D day(s), ]H:MM:SS[.ffffff]`. -/
def strTimedelta (us : Nat) : Str :=
  if us / 86400000000 = 0 then strTimedeltaCore us
  else digitChars (us / 86400000000) ++
    ((if us / 86400000000 = 1 then " day, ".data else " days, ".data) ++ strTimedeltaCore us)

/-- The timing formatter in `_process_segments`:
`str(timedelta(seconds=t)).rjust(12, "0")[:-3].replace(".", ",")`. -/
def fmtTime (us : Nat) : Str :=
  replaceChar '.' ','
    ((pyRjust 12 '0' (strTimedelta us)).take ((pyRjust 12 '0' (strTimedelta us)).length - 3))

/-- The `HH:MM:SS,mmm` rendering claimed by the spec for `_process_segments`
(two-digit zero-padded hours).  Stated from the spec's words, for comparison
with the code's actual `fmtTime`. -/
def specHMS (us : Nat) : Str :=
  padNum 2 (us / 3600000000) ++ (':' :: (padNum 2 (us % 3600000000 / 60000000) ++
    (':' :: (padNum 2 (us % 60000000 / 1000000) ++
      (',' :: padNum 3 (us % 1000000 / 1000))))))

/-- What `fmtTime` actually produces for sub-day times with a nonzero
microsecond part: same as `specHMS` except that the hours are rendered
without zero padding. -/
def actualHMS (us : Nat) : Str :=
  digitChars (us / 3600000000) ++ (':' :: (padNum 2 (us % 3600000000 / 60000000) ++
    (':' :: (padNum 2 (us % 60000000 / 1000000) ++
      (',' :: padNum 3 (us % 1000000 / 1000))))))

/-- Events observable from the worker thread: progress updates, the
completion signal with the finished segment list, and the error signal. -/
inductive Event where
  | progress : Nat → Str → Event
  | complete : List Segment → Event
  | error : Str → Event
deriving DecidableEq

/-- State of the cooperative cancellation flag at the `k`-th cancellation
check of a run: `some c` means the flag becomes (and stays) set from check
`c` on; `none` means `cancel()` is never called. -/
def isCancelled (cancelAt : Option Nat) (k : Nat) : Bool :=
  match cancelAt with
  | none => false
  | some c => c ≤ k

/-- The message emitted by `WhisperTranscriptionThread.cancel`. -/
def cancelMsg : Str := "Cancelling operation...".data

/-- The events emitted by `WhisperTranscriptionThread.cancel` itself. -/
def cancelEvents : List Event := [Event.progress 0 cancelMsg]

/-- Every event a cancelled run may emit: a progress event of at most 95%
whose message does not start with `'C'` — in particular neither a completion
event nor the distinguished `"Cancelling operation..."` message of
`cancel()`. -/
def EvOK (e : Event) : Prop :=
  ∃ pct msg, e = Event.progress pct msg ∧ pct ≤ 95 ∧ msg.head? ≠ some 'C'

/-- Result of one worker phase: emitted events, produced segments, next
cancellation-check index, and whether the phase aborted on the flag. -/
structure PhaseOut where
  events : List Event
  segs : List Segment
  k : Nat
  aborted : Bool

/-- The per-segment progress message of `_process_segments`. -/
def procMsg (i total : Nat) : Str :=
  "Processing segment ".data ++ digitChars i ++ "/".data ++ digitChars total

/-- Loop body of `_process_segments`: checks the cancellation flag at the top
of each iteration (returning `[]` when set), formats the segment, and — when
no translation will follow — emits scaled progress.  The Python progress
value `65 + int((idx+1)/total*30)` is embedded as the natural floor division
`65 + (idx+1)*30/total` (the two differ only by float rounding of the ratio,
which no claim depends on). -/
def processSegsAux (translateFlag : Bool) (total : Nat) (cancelAt : Option Nat) :
    Nat → Nat → List RawSeg → PhaseOut
  | k, _, [] => ⟨[], [], k, false⟩
  | k, idx, r :: rest =>
    if isCancelled cancelAt k then ⟨[], [], k + 1, true⟩
    else
      let seg : Segment := ⟨fmtTime r.start, fmtTime r.endT, pyStrip r.text⟩
      let evs := if translateFlag then []
                 else [Event.progress (65 + (idx + 1) * 30 / total) (procMsg (idx + 1) total)]
      let out := processSegsAux translateFlag total cancelAt (k + 1) (idx + 1) rest
      ⟨evs ++ out.events, if out.aborted then [] else seg :: out.segs, out.k, out.aborted⟩

/-- Embedding of `WhisperTranscriptionThread._process_segments`
(`transcription.py`), starting its cancellation checks at index `k0`. -/
def process_segments (translateFlag : Bool) (cancelAt : Option Nat) (k0 : Nat)
    (raw : List RawSeg) : PhaseOut :=
  processSegsAux translateFlag raw.length cancelAt k0 0 raw

/-- The batch size chosen by `_translate_segments`:
`max(5, total_texts // 10)`. -/
def batchSize (n : Nat) : Nat := max 5 (n / 10)

/-- The batch start offsets `range(0, total, batch_size)`. -/
def batchStarts (n : Nat) : List Nat :=
  (List.range ((n + batchSize n - 1) / batchSize n)).map (fun j => j * batchSize n)

/-- Overwrites the text of the segment at one index (Python
`translated_segments[idx]["text"] = ...`). -/
def setText (t : Str) : Nat → List Segment → List Segment
  | _, [] => []
  | 0, s :: r => {s with text := t} :: r
  | n + 1, s :: r => s :: setText t n r

/-- Overwrites the texts of the segments at indices `i, i+1, ...` with the
given batch of translations. -/
def setTexts : Nat → List Str → List Segment → List Segment
  | _, [], segs => segs
  | i, t :: ts, segs => setTexts (i + 1) ts (setText t i segs)

/-- The per-batch progress message of `_translate_segments`. -/
def transMsg (i len total : Nat) : Str :=
  "Translating segments ".data ++ digitChars (i + 1) ++ "-".data ++
  digitChars (i + len) ++ "/".data ++ digitChars total

/-- Batch loop of `_translate_segments`: a cancellation check at the top of
each batch (returning `[]` when set), a progress event (`70 +
int(i/total*25)` embedded as floor division as for `processSegsAux`), the
batch translation, and the index-aligned write-back.  `F` is the global
per-index translation oracle. -/
def translateLoop (F : Nat → Str → Option Str) (texts : List Str) (total : Nat)
    (cancelAt : Option Nat) : Nat → List Nat → List Segment → PhaseOut
  | k, [], segs => ⟨[], segs, k, false⟩
  | k, i :: restStarts, segs =>
    if isCancelled cancelAt k then ⟨[], [], k + 1, true⟩
    else
      let batch := (texts.drop i).take (batchSize total)
      let ev := Event.progress (70 + i * 25 / total) (transMsg i batch.length total)
      let translated := translate_batch (fun j t => F (i + j) t) batch
      let out := translateLoop F texts total cancelAt (k + 1) restStarts (setTexts i translated segs)
      ⟨ev :: out.events, out.segs, out.k, out.aborted⟩

/-- Embedding of `WhisperTranscriptionThread._translate_segments`
(`transcription.py`): emits the 70% start message, runs the batch loop, and
emits the 95% completion message only when not aborted. -/
def translate_segments (F : Nat → Str → Option Str) (cancelAt : Option Nat)
    (k0 : Nat) (segs : List Segment) : PhaseOut :=
  let texts := segs.map (fun s => s.text)
  let total := texts.length
  let out := translateLoop F texts total cancelAt k0 (batchStarts total) segs
  ⟨Event.progress 70 "Starting translation...".data ::
     (out.events ++ if out.aborted then [] else [Event.progress 95 "Translation completed.".data]),
   out.segs, out.k, out.aborted⟩

/-- Truthiness of `self.target_language` (`None` or empty string are falsy). -/
def targetTruthy : Option Str → Bool
  | none => false
  | some s => !s.isEmpty

/-- Inputs of one worker run that the embedding treats as parameters: the
constructor arguments, the hardware probe, the model's outputs, and the
translation outcomes.  `gpuMemStr` stands for the `f"{gpu_memory:.1f}"`
rendering of `gpuMem`. -/
structure RunParams where
  sourceLanguage : Str
  translate : Bool
  targetLanguage : Option Str
  cuda : Bool
  gpuMem : ℚ
  gpuMemStr : Str
  detectedLanguage : Str
  rawSegments : List RawSeg
  oracle : Nat → Str → Option Str

/-- Embedding of `_select_model_size`: the size ladder over available GPU
memory, and the 15% progress event it emits. -/
def selectModelSize (cuda : Bool) (gpuMem : ℚ) (gpuMemStr : Str) : Str × Event :=
  if cuda then
    let ms := if gpuMem > 10 then "large".data
              else if gpuMem > 5 then "medium".data
              else if gpuMem > 2 then "small".data
              else "base".data
    ⟨ms, Event.progress 15 ("Using ".data ++ ms ++ " model with GPU acceleration (".data ++
                            gpuMemStr ++ " GB VRAM)".data)⟩
  else ⟨"base".data, Event.progress 15 "Using base model (CPU mode - slower)".data⟩

/-- The events emitted before the first cancellation check of `run`: the 5%
init message, the 15% hardware message from `_select_model_size`, and the 10%
model-loading message. -/
def preEvents (p : RunParams) : List Event :=
  [Event.progress 5 "Initializing transcription model...".data,
   (selectModelSize p.cuda p.gpuMem p.gpuMemStr).2,
   Event.progress 10 ("Loading ".data ++
     ((selectModelSize p.cuda p.gpuMem p.gpuMemStr).1 ++ " model...".data))]

/-- The events emitted before the second cancellation check of `run`: the 30%
model-loaded message and the 35% language-mode message. -/
def pre2Events (p : RunParams) : List Event :=
  preEvents p ++
    [Event.progress 30 "Model loaded. Starting transcription...".data,
     if p.sourceLanguage ≠ "auto".data then
       Event.progress 35 ("Transcribing with language: ".data ++ p.sourceLanguage)
     else Event.progress 35 "Detecting language automatically...".data]

/-- The `_process_segments` phase of a run (cancellation checks 2 onward). -/
def runProc (p : RunParams) (cancelAt : Option Nat) : PhaseOut :=
  process_segments p.translate cancelAt 2 p.rawSegments

/-- All events emitted up to and including the `_process_segments` phase. -/
def pre3Events (p : RunParams) (cancelAt : Option Nat) : List Event :=
  pre2Events p ++
    [Event.progress 60 "Transcription complete. Processing results...".data,
     Event.progress 65 ("Detected language: ".data ++ p.detectedLanguage)] ++
    (runProc p cancelAt).events

/-- The `_translate_segments` phase of a run, fed by the processed segments,
with its cancellation checks starting right after the post-processing check. -/
def runTrans (p : RunParams) (cancelAt : Option Nat) : PhaseOut :=
  translate_segments p.oracle cancelAt ((runProc p cancelAt).k + 1) (runProc p cancelAt).segs

/-- Embedding of `WhisperTranscriptionThread.run` (`transcription.py`) on the
path where model load and transcription succeed (the exception path emits a
single error event and is not exercised by the claims).  Cancellation checks
are numbered in program order: 0 after model load, 1 after transcription,
then one per processed segment, one after `_process_segments`, one per
translation batch, and one after `_translate_segments`.  An early return on
a set flag emits nothing further; the 100% message and the completion signal
are emitted only after every check passed. -/
def run (p : RunParams) (cancelAt : Option Nat) : List Event :=
  if isCancelled cancelAt 0 then preEvents p
  else if isCancelled cancelAt 1 then pre2Events p
  else if isCancelled cancelAt (runProc p cancelAt).k then pre3Events p cancelAt
  else if p.translate && targetTruthy p.targetLanguage then
    (if isCancelled cancelAt (runTrans p cancelAt).k then
      pre3Events p cancelAt ++ (runTrans p cancelAt).events
    else
      pre3Events p cancelAt ++ (runTrans p cancelAt).events ++
        [Event.progress 100 "Complete!".data, Event.complete (runTrans p cancelAt).segs])
  else
    pre3Events p cancelAt ++
      [Event.progress 100 "Complete!".data, Event.complete (runProc p cancelAt).segs]

/-- Number of translation batches for `n` texts. -/
def numBatches (n : Nat) : Nat := (n + batchSize n - 1) / batchSize n

/-- Index of the last cancellation check a completing run performs. -/
def lastCheck (p : RunParams) : Nat :=
  let n := p.rawSegments.length
  if p.translate && targetTruthy p.targetLanguage then n + 3 + numBatches n else n + 2

/-- A concrete run parameterization used to witness the cancellation
theorem: CPU-only hardware, automatic language, no translation, one raw
segment. -/
def sampleRunParams : RunParams :=
  ⟨"auto".data, false, none, false, 0, [], "en".data,
   [⟨1500000, 2500000, "Hi".data⟩], fun _ _ => none⟩

/-- Checks that a string has two consecutive newline characters. -/
def hasNN : Str → Bool
  | [] => false
  | [_] => false
  | a :: b :: r => (a = '\n' && b = '\n') || hasNN (b :: r)

/-- Well-formedness of a segment for SRT round-tripping (claim C5): the
timestamps carry no newline, and the text is nonempty, has no leading or
trailing newline, and no blank line. -/
def GoodSeg (s : Segment) : Prop :=
  '\n' ∉ s.start ∧ '\n' ∉ s.endT ∧ s.text ≠ [] ∧
  s.text.head? ≠ some '\n' ∧ s.text.getLast? ≠ some '\n' ∧ hasNN s.text = false

instance : DecidablePred GoodSeg := fun s => by unfold GoodSeg; infer_instance

/-- The VTT block that the claimed SRT→VTT conversion produces for one
segment: timing line with commas turned to dots, the text, a blank line. -/
def vttSegBlock (s : Segment) : Str :=
  replaceChar ',' '.' (timingLine s) ++ ('\n' :: (s.text ++ "\n\n".data))

/-- Default segment used with `List.getD` in index-wise statements. -/
def defaultSeg : Segment := ⟨[], [], []⟩

/-- `b` has the same length as `a` and, index for index, the same `start` and
`endT` fields: only texts may differ. -/
def FramePreserved (a b : List Segment) : Prop :=
  b.length = a.length ∧
  ∀ i, (b.getD i defaultSeg).start = (a.getD i defaultSeg).start ∧
       (b.getD i defaultSeg).endT = (a.getD i defaultSeg).endT

/-- Claim C8's example segment. -/
def exampleSeg : Segment :=
  ⟨"00:00:01,000".data, "00:00:03,000".data, "Hi".data⟩

/-- Claim C8: the single-segment example round-trips to exactly the SRT and
VTT strings stated in the spec. -/
theorem srt_vtt_example :
    get_srt_content [exampleSeg] = "1\n00:00:01,000 --> 00:00:03,000\nHi\n\n".data ∧
    save_srt_to_vtt "1\n00:00:01,000 --> 00:00:03,000\nHi\n\n".data =
      "WEBVTT\n\n00:00:01.000 --> 00:00:03.000\nHi\n\n".data := by
  constructor <;> decide

/-! ### Decimal digit rendering: bridge to `Nat.digits` and round-trip -/

theorem digitsBE_eq (fuel n : Nat) (h : n ≤ fuel) :
    digitsBE fuel n = (Nat.digits 10 n).reverse.map digitChar := by
  induction fuel generalizing n with
  | zero =>
    have : n = 0 := Nat.le_zero.mp h
    subst this
    simp [digitsBE]
  | succ fuel ih =>
    cases n with
    | zero => simp [digitsBE]
    | succ m =>
      have hdiv : (m + 1) / 10 ≤ fuel := by
        have := Nat.div_lt_self (Nat.succ_pos m) (by norm_num : 1 < 10)
        omega
      rw [digitsBE, ih _ hdiv, Nat.digits_def' (by norm_num : 1 < 10) (Nat.succ_pos m)]
      simp

theorem digitChars_eq (n : Nat) :
    digitChars n = if n = 0 then ['0'] else (Nat.digits 10 n).reverse.map digitChar := by
  unfold digitChars
  split
  · rfl
  · exact digitsBE_eq n n le_rfl

theorem digitChars_lt_ten {n : Nat} (h : n < 10) : digitChars n = [digitChar n] := by
  rcases Nat.eq_zero_or_pos n with h0 | h0
  · subst h0; decide
  · rw [digitChars_eq, if_neg (by omega), Nat.digits_def' (by norm_num : 1 < 10) h0,
        Nat.mod_eq_of_lt h, Nat.div_eq_of_lt h]
    simp

theorem digitChars_ge_ten {n : Nat} (h : 10 ≤ n) :
    digitChars n = digitChars (n / 10) ++ [digitChar (n % 10)] := by
  rw [digitChars_eq, if_neg (by omega), digitChars_eq,
      if_neg (by omega : ¬ n / 10 = 0), Nat.digits_def' (by norm_num : 1 < 10) (by omega)]
  simp

theorem digitChars_ne_nil (n : Nat) : digitChars n ≠ [] := by
  rw [digitChars_eq]
  split
  · simp
  · simp [Nat.digits_ne_nil_iff_ne_zero, *]

theorem mem_digitChars {c : Char} {n : Nat} (h : c ∈ digitChars n) :
    ∃ d, d < 10 ∧ c = digitChar d := by
  rw [digitChars_eq] at h
  split at h
  · exact ⟨0, by norm_num, by simpa using h⟩
  · simp only [List.mem_map, List.mem_reverse] at h
    obtain ⟨d, hd, rfl⟩ := h
    exact ⟨d, Nat.digits_lt_base (by norm_num) hd, rfl⟩

theorem isDigitChar_digitChar : ∀ d, d < 10 → isDigitChar (digitChar d) = true := by decide

theorem mem_digitChars_isDigit {c : Char} {n : Nat} (h : c ∈ digitChars n) :
    isDigitChar c = true := by
  obtain ⟨d, hd, rfl⟩ := mem_digitChars h
  exact isDigitChar_digitChar d hd

theorem digitVal_digitChar : ∀ d, d < 10 → digitVal (digitChar d) = d := by decide

theorem foldl_digits_replicate_zero (k : Nat) (l : Str) :
    digitsToNat (List.replicate k '0' ++ l) = digitsToNat l := by
  induction k with
  | zero => rfl
  | succ k ih => simpa [List.replicate_succ, digitsToNat] using ih

theorem digitsToNat_append_singleton (a : Str) (c : Char) :
    digitsToNat (a ++ [c]) = 10 * digitsToNat a + digitVal c := by
  simp [digitsToNat, List.foldl_append]

theorem digitsToNat_digitChars (n : Nat) : digitsToNat (digitChars n) = n := by
  induction n using Nat.strong_induction_on with
  | _ n ih =>
    by_cases h : n < 10
    · rw [digitChars_lt_ten h]
      simpa [digitsToNat] using digitVal_digitChar n h
    · push_neg at h
      have hdiv : n / 10 < n := Nat.div_lt_self (by omega) (by norm_num)
      rw [digitChars_ge_ten h, digitsToNat_append_singleton, ih _ hdiv,
          digitVal_digitChar _ (Nat.mod_lt n (by norm_num))]
      omega

/-! ### Character class facts -/

theorem isDigitChar_not_special {c : Char} (h : isDigitChar c = true) :
    isPyWs c = false ∧ c ≠ '\n' ∧ c ≠ ':' ∧ c ≠ ',' ∧ c ≠ '.' ∧ c ≠ '+' ∧
    c ≠ '-' ∧ c ≠ '_' ∧ c ≠ 'C' := by
  refine ⟨?_, ?_, ?_, ?_, ?_, ?_, ?_, ?_, ?_⟩
  · by_contra hw
    simp only [Bool.not_eq_false, isPyWs, Bool.or_eq_true, decide_eq_true_eq] at hw
    rcases hw with ((((h1 | h1) | h1) | h1) | h1) | h1 <;> (subst h1; exact absurd h (by decide))
  all_goals intro h1; subst h1; exact absurd h (by decide)

theorem digitChars_all_digits (n : Nat) : ∀ c ∈ digitChars n, isDigitChar c = true :=
  fun _ hc => mem_digitChars_isDigit hc


/-! ### Strip and padding lemmas -/

theorem pyStrip_eq_self {l : Str} (h : ∀ c ∈ l, isPyWs c = false) : pyStrip l = l := by
  unfold pyStrip
  have h1 : ∀ (m : Str), (∀ c ∈ m, isPyWs c = false) → List.dropWhile isPyWs m = m := by
    intro m hm
    cases m with
    | nil => rfl
    | cons a t => simp [List.dropWhile_cons, hm a (by simp)]
  rw [h1 l h, h1 l.reverse (fun c hc => h c (by simpa using hc)), List.reverse_reverse]

theorem pyStrip_eq_nil_iff {l : Str} : pyStrip l = [] ↔ ∀ c ∈ l, isPyWs c = true := by
  unfold pyStrip
  rw [List.reverse_eq_nil_iff, List.dropWhile_eq_nil_iff]
  constructor
  · intro h c hc
    have hsplit : c ∈ l.takeWhile isPyWs ++ l.dropWhile isPyWs := by
      rw [List.takeWhile_append_dropWhile]; exact hc
    rcases List.mem_append.mp hsplit with h1 | h1
    · exact List.mem_takeWhile_imp h1
    · exact h c (by simpa using h1)
  · intro h c hc
    rw [List.mem_reverse] at hc
    exact h c ((List.dropWhile_sublist _).mem hc)

theorem length_pyRjust (w : Nat) (f : Char) (s : Str) :
    (pyRjust w f s).length = max w s.length := by
  simp [pyRjust]
  omega

theorem pyRjust_eq_self {w : Nat} {f : Char} {s : Str} (h : w ≤ s.length) :
    pyRjust w f s = s := by
  simp [pyRjust, Nat.sub_eq_zero_of_le h]

theorem pyLjust_eq_self {w : Nat} {f : Char} {s : Str} (h : w ≤ s.length) :
    pyLjust w f s = s := by
  simp [pyLjust, Nat.sub_eq_zero_of_le h]

theorem mem_pyRjust {w : Nat} {f : Char} {s : Str} {c : Char} (h : c ∈ pyRjust w f s) :
    c = f ∨ c ∈ s := by
  rcases List.mem_append.mp h with h1 | h1
  · exact Or.inl (List.eq_of_mem_replicate h1)
  · exact Or.inr h1

theorem padNum_all_digits (w n : Nat) : ∀ c ∈ padNum w n, isDigitChar c = true := by
  intro c hc
  rcases mem_pyRjust hc with rfl | h1
  · decide
  · exact mem_digitChars_isDigit h1

/-! ### `pyInt` on digit strings -/

theorem noDoubleUnderscore_of_digits {l : Str} (h : ∀ c ∈ l, isDigitChar c = true) :
    noDoubleUnderscore l = true := by
  induction l with
  | nil => rfl
  | cons a t ih =>
    cases t with
    | nil => rfl
    | cons b r =>
      have ha : a ≠ '_' := ((isDigitChar_not_special (h a (by simp))).2.2.2.2.2.2.2).1
      rw [noDoubleUnderscore]
      simp only [Bool.and_eq_true, Bool.not_eq_true']
      refine ⟨by simp [ha], ih (fun c hc => h c (List.mem_cons_of_mem a hc))⟩

theorem validDigitPart_of_digits {l : Str} (hne : l ≠ [])
    (h : ∀ c ∈ l, isDigitChar c = true) : validDigitPart l = true := by
  unfold validDigitPart
  simp only [Bool.and_eq_true, Bool.not_eq_true']
  refine ⟨⟨⟨⟨by simpa [List.isEmpty_iff] using hne, ?_⟩, ?_⟩, ?_⟩,
          noDoubleUnderscore_of_digits h⟩
  · rw [List.all_eq_true]
    intro c hc
    simp [h c hc]
  · cases l with
    | nil => exact absurd rfl hne
    | cons a t => exact h a (by simp)
  · have hmem : l.getLastI ∈ l := by
      cases l with
      | nil => exact absurd rfl hne
      | cons a t =>
        rw [List.getLastI_eq_getLast?, List.getLast?_eq_getLast (a :: t) (by simp)]
        exact List.getLast_mem _
    exact h _ hmem

theorem parseDigitPart_of_digits {l : Str} (hne : l ≠ [])
    (h : ∀ c ∈ l, isDigitChar c = true) : parseDigitPart l = some (digitsToNat l) := by
  unfold parseDigitPart
  rw [if_pos (validDigitPart_of_digits hne h), List.filter_eq_self.mpr]
  intro c hc
  have := ((isDigitChar_not_special (h c hc)).2.2.2.2.2.2.2).1
  simpa using this

theorem pyInt_of_digits {l : Str} (hne : l ≠ []) (h : ∀ c ∈ l, isDigitChar c = true) :
    pyInt l = some ((digitsToNat l : Nat) : Int) := by
  have hstrip : pyStrip l = l :=
    pyStrip_eq_self (fun c hc => (isDigitChar_not_special (h c hc)).1)
  have hhead : l.headI ∈ l := by
    cases l with
    | nil => exact absurd rfl hne
    | cons a t => simp [List.headI]
  have hd := isDigitChar_not_special (h _ hhead)
  unfold pyInt
  rw [hstrip, if_neg (by simpa using hd.2.2.2.2.2.1), if_neg (by simpa using hd.2.2.2.2.2.2.1)]
  rw [parseDigitPart_of_digits hne h]
  rfl

theorem digitsToNat_padNum (w n : Nat) : digitsToNat (padNum w n) = n := by
  unfold padNum pyRjust
  rw [foldl_digits_replicate_zero, digitsToNat_digitChars]

theorem pyInt_padNum (w n : Nat) : pyInt (padNum w n) = some (n : Int) := by
  have hne : padNum w n ≠ [] := by
    unfold padNum pyRjust
    simp [digitChars_ne_nil n]
  rw [pyInt_of_digits hne (padNum_all_digits w n), digitsToNat_padNum]

/-! ### `splitChar` lemmas -/

theorem splitChar_ne_nil (sep : Char) (l : Str) : splitChar sep l ≠ [] := by
  cases l with
  | nil => simp [splitChar]
  | cons c rest =>
    rw [splitChar]
    split
    · simp
    · split
      · simp
      · simp

theorem splitChar_cons_of_ne {sep c : Char} (h : c ≠ sep) (rest : Str) :
    splitChar sep (c :: rest) =
      (c :: (splitChar sep rest).headI) :: (splitChar sep rest).tail := by
  rw [splitChar, if_neg h]
  rcases hs : splitChar sep rest with _ | ⟨hd, tl⟩
  · exact absurd hs (splitChar_ne_nil sep rest)
  · simp

theorem splitChar_of_not_mem {sep : Char} {l : Str} (h : sep ∉ l) :
    splitChar sep l = [l] := by
  induction l with
  | nil => rfl
  | cons c rest ih =>
    have hc : c ≠ sep := fun he => h (he ▸ List.mem_cons_self c rest)
    rw [splitChar_cons_of_ne hc, ih (fun hm => h (List.mem_cons_of_mem c hm))]
    simp

theorem splitChar_append {sep : Char} {a : Str} (h : sep ∉ a) (b : Str) :
    splitChar sep (a ++ sep :: b) = a :: splitChar sep b := by
  induction a with
  | nil => simp [splitChar]
  | cons c rest ih =>
    have hc : c ≠ sep := fun he => h (he ▸ List.mem_cons_self c rest)
    have ih2 := ih (fun hm => h (List.mem_cons_of_mem c hm))
    rw [List.cons_append, splitChar_cons_of_ne hc, ih2]
    simp

theorem not_mem_of_mem_splitChar {sep : Char} {l x : Str} (h : x ∈ splitChar sep l) :
    sep ∉ x := by
  induction l generalizing x with
  | nil =>
    simp only [splitChar, List.mem_singleton] at h
    simp [h]
  | cons c rest ih =>
    by_cases hc : c = sep
    · subst hc
      rw [splitChar, if_pos rfl] at h
      rcases List.mem_cons.mp h with rfl | hm
      · simp
      · exact ih hm
    · rw [splitChar_cons_of_ne hc] at h
      rcases hs : splitChar sep rest with _ | ⟨hd, tl⟩
      · exact absurd hs (splitChar_ne_nil sep rest)
      · rw [hs] at h
        simp only [List.headI, List.tail_cons] at h
        have hhd : hd ∈ splitChar sep rest := by rw [hs]; exact List.mem_cons_self hd tl
        rcases List.mem_cons.mp h with rfl | hm
        · intro hmem
          rcases List.mem_cons.mp hmem with he | hm2
          · exact hc he.symm
          · exact ih hhd hm2
        · exact ih (by rw [hs]; exact List.mem_cons_of_mem hd hm)

theorem subset_of_mem_splitChar {sep : Char} {l x : Str} (h : x ∈ splitChar sep l) :
    ∀ c ∈ x, c ∈ l := by
  induction l generalizing x with
  | nil =>
    simp only [splitChar, List.mem_singleton] at h
    subst h
    simp
  | cons c rest ih =>
    by_cases hc : c = sep
    · subst hc
      rw [splitChar, if_pos rfl] at h
      rcases List.mem_cons.mp h with rfl | hm
      · simp
      · exact fun d hd => List.mem_cons_of_mem c (ih hm d hd)
    · rw [splitChar_cons_of_ne hc] at h
      rcases hs : splitChar sep rest with _ | ⟨hd, tl⟩
      · exact absurd hs (splitChar_ne_nil sep rest)
      · rw [hs] at h
        simp only [List.headI, List.tail_cons] at h
        have hhd : hd ∈ splitChar sep rest := by rw [hs]; exact List.mem_cons_self hd tl
        rcases List.mem_cons.mp h with rfl | hm
        · intro d hd2
          rcases List.mem_cons.mp hd2 with rfl | hd3
          · simp
          · exact List.mem_cons_of_mem c (ih hhd d hd3)
        · exact fun d hd2 =>
            List.mem_cons_of_mem c (ih (by rw [hs]; exact List.mem_cons_of_mem hd hm) d hd2)

theorem joinSep_splitChar (sep : Char) (l : Str) :
    joinSep sep (splitChar sep l) = l := by
  induction l with
  | nil => rfl
  | cons c rest ih =>
    by_cases hc : c = sep
    · subst hc
      rw [splitChar, if_pos rfl]
      rcases hs : splitChar c rest with _ | ⟨hd, tl⟩
      · exact absurd hs (splitChar_ne_nil c rest)
      · rw [hs] at ih
        rw [joinSep]
        simpa using ih
    · rw [splitChar_cons_of_ne hc]
      rcases hs : splitChar sep rest with _ | ⟨hd, tl⟩
      · exact absurd hs (splitChar_ne_nil sep rest)
      · rw [hs] at ih
        simp only [List.headI, List.tail_cons]
        cases tl with
        | nil => rw [joinSep] at ih ⊢; rw [ih]
        | cons t ts =>
          rw [joinSep] at ih ⊢
          rw [List.cons_append, ih]

/-! ### Claim C2: `translate_batch` shape -/

theorem translateBatchAux_length (f : Nat → Str → Option Str) (i : Nat) (l : List Str) :
    (translateBatchAux f i l).length = l.length := by
  induction l generalizing i with
  | nil => rfl
  | cons t rest ih => simp [translateBatchAux, ih]

theorem translateBatchAux_getD (f : Nat → Str → Option Str) (l : List Str) (i j : Nat) :
    (translateBatchAux f i l).getD j [] =
      (if pyStrip (l.getD j []) = [] then l.getD j []
       else match f (i + j) (l.getD j []) with
            | some r => r
            | none => l.getD j []) := by
  induction l generalizing i j with
  | nil => simp [translateBatchAux, pyStrip]
  | cons t rest ih =>
    cases j with
    | zero => simp [translateBatchAux]
    | succ j =>
      have := ih (i + 1) j
      simpa [translateBatchAux, Nat.add_assoc, Nat.add_comm 1 j] using this

/-- Claim C2: `translate_batch` returns a list of the same length with
entries in the same index positions; blank entries come back unchanged, and
an entry whose individual translation raises (`f i t = none`) is replaced by
the original input text at that index. -/
theorem translate_batch_shape (f : Nat → Str → Option Str) (texts : List Str) :
    (translate_batch f texts).length = texts.length ∧
    (∀ i, pyStrip (texts.getD i []) = [] →
      (translate_batch f texts).getD i [] = texts.getD i []) ∧
    (∀ i, f i (texts.getD i []) = none →
      (translate_batch f texts).getD i [] = texts.getD i []) := by
  refine ⟨translateBatchAux_length f 0 texts, ?_, ?_⟩
  · intro i h
    rw [translate_batch, translateBatchAux_getD, if_pos h]
  · intro i h
    rw [translate_batch, translateBatchAux_getD]
    split
    · rfl
    · rw [Nat.zero_add, h]

/-- Claim C2 witness: a concrete blank entry and a concrete failing entry
both come back unchanged, and the length is preserved. -/
theorem translate_batch_shape_witness :
    (translate_batch (fun _ _ => none) [" ".data, "a".data]).length = 2 ∧
    (translate_batch (fun _ _ => none) [" ".data, "a".data]).getD 0 [] = " ".data ∧
    (translate_batch (fun _ _ => none) [" ".data, "a".data]).getD 1 [] = "a".data := by
  have h := translate_batch_shape (fun _ _ => none) [" ".data, "a".data]
  exact ⟨h.1, h.2.1 0 (by decide), h.2.2 1 rfl⟩

/-! ### Claim C4: `translate_text` endpoint fallback -/

theorem tryServersTr_all_fallthrough (net : Nat → NetResult) (l : List Nat)
    (h : ∀ i ∈ l, attemptResult (net i) = Attempt.fallthrough) :
    tryServersTr net l = (none, l) := by
  induction l with
  | nil => rfl
  | cons i rest ih =>
    rw [tryServersTr, h i (by simp), ih (fun j hj => h j (List.mem_cons_of_mem i hj))]

theorem tryServersTr_success (net : Nat → NetResult) (l1 : List Nat) (k : Nat)
    (l2 : List Nat) (t : Str)
    (h1 : ∀ i ∈ l1, attemptResult (net i) = Attempt.fallthrough)
    (h2 : attemptResult (net k) = Attempt.success t) :
    tryServersTr net (l1 ++ k :: l2) = (some (TTResult.ok t), l1 ++ [k]) := by
  induction l1 with
  | nil => simp [tryServersTr, h2]
  | cons i rest ih =>
    rw [List.cons_append, tryServersTr, h1 i (by simp),
        ih (fun j hj => h1 j (List.mem_cons_of_mem i hj))]
    simp

theorem tryServersTr_raised (net : Nat → NetResult) (l1 : List Nat) (k : Nat)
    (l2 : List Nat)
    (h1 : ∀ i ∈ l1, attemptResult (net i) = Attempt.fallthrough)
    (h2 : attemptResult (net k) = Attempt.raised) :
    tryServersTr net (l1 ++ k :: l2) = (some TTResult.typeError, l1 ++ [k]) := by
  induction l1 with
  | nil => simp [tryServersTr, h2]
  | cons i rest ih =>
    rw [List.cons_append, tryServersTr, h1 i (by simp),
        ih (fun j hj => h1 j (List.mem_cons_of_mem i hj))]
    simp

theorem tryServersTr_some_ok (net : Nat → NetResult) (l : List Nat)
    (h : ∀ i ∈ l, attemptResult (net i) ≠ Attempt.raised) :
    ∀ r, (tryServersTr net l).1 = some r → ∃ t, r = TTResult.ok t := by
  induction l with
  | nil => intro r hr; exact absurd hr (by simp [tryServersTr])
  | cons i rest ih =>
    intro r hr
    rw [tryServersTr] at hr
    cases hA : attemptResult (net i) with
    | success t =>
      rw [hA] at hr
      exact ⟨t, (Option.some.inj hr).symm⟩
    | raised => exact absurd hA (h i (by simp))
    | fallthrough =>
      rw [hA] at hr
      exact ih (fun j hj => h j (List.mem_cons_of_mem i hj)) r hr

/-- Claim C4 counterexample: the claim says that on a malformed 200 body the
call continues to the next endpoint and that `translate_text` never raises.
With endpoint 0 answering HTTP 200 with the JSON body `null` (and endpoint 1
ready with a perfectly good translation), the `in` test raises a `TypeError`
that `except requests.RequestException` does not catch: the call raises, only
endpoint 0 is ever contacted, and neither endpoint 1's translation nor the
original text is returned. -/
theorem translate_text_typeerror_counterexample :
    translate_text nullBodyNet "hi".data = TTResult.typeError ∧
    translate_text_contacted nullBodyNet "hi".data = [0] ∧
    attemptResult (nullBodyNet 1) = Attempt.success "hola".data := by
  refine ⟨by decide, by decide, by decide⟩

/-- Claim C4 amended: blank input short-circuits without contacting any
endpoint; when no endpoint's 200 body triggers the uncaught-`TypeError` path
the call never raises; each endpoint that falls through (caught exception,
non-200 status, or 200 with an object body lacking the field) is followed by
the next one in order; if all four endpoints fall through the original text
is returned unchanged; the first endpoint answering 200 with an object body
carrying the field has its translation returned; and the first endpoint
answering 200 with a non-object body passing the `in` test (or a non-iterable
body) makes the call raise instead of falling through. -/
theorem translate_text_fallback_amended (net : Nat → NetResult) (text : Str) :
    (pyStrip text = [] →
      translate_text net text = TTResult.ok text ∧
      translate_text_contacted net text = []) ∧
    ((∀ i < 4, attemptResult (net i) ≠ Attempt.raised) →
      ∃ s, translate_text net text = TTResult.ok s) ∧
    ((∀ i < 4, attemptResult (net i) = Attempt.fallthrough) →
      translate_text net text = TTResult.ok text ∧
      (pyStrip text ≠ [] → translate_text_contacted net text = [0, 1, 2, 3])) ∧
    (∀ k t, k < 4 → (∀ i < k, attemptResult (net i) = Attempt.fallthrough) →
      attemptResult (net k) = Attempt.success t → pyStrip text ≠ [] →
      translate_text net text = TTResult.ok t ∧
      translate_text_contacted net text = List.range (k + 1)) ∧
    (∀ k, k < 4 → (∀ i < k, attemptResult (net i) = Attempt.fallthrough) →
      attemptResult (net k) = Attempt.raised → pyStrip text ≠ [] →
      translate_text net text = TTResult.typeError ∧
      translate_text_contacted net text = List.range (k + 1)) := by
  refine ⟨?_, ?_, ?_, ?_, ?_⟩
  · intro h
    rw [translate_text, translate_text_contacted, if_pos h, if_pos h]
    exact ⟨rfl, rfl⟩
  · intro h
    rw [translate_text]
    split
    · exact ⟨text, rfl⟩
    · have hl : ∀ i ∈ List.range SERVERS.length,
          attemptResult (net i) ≠ Attempt.raised :=
        fun i hi => h i (List.mem_range.mp hi)
      cases hM : (tryServersTr net (List.range SERVERS.length)).1 with
      | none => exact ⟨text, rfl⟩
      | some r =>
        obtain ⟨t, rfl⟩ := tryServersTr_some_ok net _ hl r hM
        exact ⟨t, rfl⟩
  · intro h
    have hall : ∀ i ∈ List.range SERVERS.length,
        attemptResult (net i) = Attempt.fallthrough := by
      intro i hi
      exact h i (List.mem_range.mp hi)
    have htry := tryServersTr_all_fallthrough net (List.range SERVERS.length) hall
    constructor
    · rw [translate_text]
      split
      · rfl
      · rw [htry]
    · intro hne
      rw [translate_text_contacted, if_neg hne, htry]
      decide
  · intro k t hk h1 h2 hne
    have hserv : List.range SERVERS.length =
        List.range k ++ k :: (List.range (3 - k)).map (fun j => k + 1 + j) := by
      interval_cases k <;> decide
    have h1' : ∀ i ∈ List.range k, attemptResult (net i) = Attempt.fallthrough :=
      fun i hi => h1 i (List.mem_range.mp hi)
    have htry := tryServersTr_success net (List.range k) k
      ((List.range (3 - k)).map (fun j => k + 1 + j)) t h1' h2
    constructor
    · rw [translate_text, if_neg hne, hserv, htry]
    · rw [translate_text_contacted, if_neg hne, hserv, htry, List.range_succ]
  · intro k hk h1 h2 hne
    have hserv : List.range SERVERS.length =
        List.range k ++ k :: (List.range (3 - k)).map (fun j => k + 1 + j) := by
      interval_cases k <;> decide
    have h1' : ∀ i ∈ List.range k, attemptResult (net i) = Attempt.fallthrough :=
      fun i hi => h1 i (List.mem_range.mp hi)
    have htry := tryServersTr_raised net (List.range k) k
      ((List.range (3 - k)).map (fun j => k + 1 + j)) h1' h2
    constructor
    · rw [translate_text, if_neg hne, hserv, htry]
    · rw [translate_text_contacted, if_neg hne, hserv, htry, List.range_succ]

/-- Claim C4 amended witness: with endpoint 0 failing (caught exception) and
endpoint 1 answering a well-formed translation on a concrete input, the call
returns endpoint 1's translation having contacted exactly endpoints 0 and 1;
and with all endpoints failing, the input comes back unchanged without
raising. -/
theorem translate_text_fallback_amended_witness :
    (translate_text
        (fun i => if i = 1
                  then NetResult.resp 200
                    (JsonBody.obj [("translatedText".data, "hola".data)])
                  else NetResult.exn) "hi".data = TTResult.ok "hola".data ∧
      translate_text_contacted
        (fun i => if i = 1
                  then NetResult.resp 200
                    (JsonBody.obj [("translatedText".data, "hola".data)])
                  else NetResult.exn) "hi".data = List.range 2) ∧
    translate_text (fun _ => NetResult.exn) "hi".data = TTResult.ok "hi".data := by
  constructor
  · exact (translate_text_fallback_amended
      (fun i => if i = 1
                then NetResult.resp 200
                  (JsonBody.obj [("translatedText".data, "hola".data)])
                else NetResult.exn) "hi".data).2.2.2.1 1 "hola".data (by decide)
      (by decide) (by decide) (by decide)
  · exact ((translate_text_fallback_amended
      (fun _ => NetResult.exn) "hi".data).2.2.1 (by intro i _; rfl)).1

/-! ### Claim C9: `calculate_reading_speed` on the empty list -/

/-- Claim C9 counterexample: on the empty segment list the returned record
does not contain the reading-speed field `avg_speed_cps` at all (it is the
key returned for non-empty inputs, as the second conjunct shows), so the
claim that every numeric field — including the reading-speed fields — is
zero fails at the concrete input `[]`. -/
theorem reading_speed_empty_counterexample :
    (calculate_reading_speed [] none).lookup "avg_speed_cps" = none ∧
    (calculate_reading_speed [exampleSeg] none).lookup "avg_speed_cps" ≠ none := by
  constructor
  · rfl
  · decide

/-- Claim C9 amended: `calculate_reading_speed` on the empty segment list
returns (without raising — the embedding is total) a record whose numeric
fields are all zero; those fields are `avg_speed`, `total_chars`,
`total_words` and `total_duration`, which are not the same keys as the
non-empty case. -/
theorem reading_speed_empty_amended :
    calculate_reading_speed [] none =
      [("avg_speed", 0), ("total_chars", 0), ("total_words", 0), ("total_duration", 0)] ∧
    ∀ kv ∈ calculate_reading_speed [] none, kv.2 = 0 := by
  refine ⟨rfl, ?_⟩
  decide

/-! ### Claim C10: `_translate_segments` only changes texts -/

theorem framePreserved_refl (a : List Segment) : FramePreserved a a :=
  ⟨rfl, fun _ => ⟨rfl, rfl⟩⟩

theorem framePreserved_trans {a b c : List Segment} (h1 : FramePreserved a b)
    (h2 : FramePreserved b c) : FramePreserved a c :=
  ⟨h2.1.trans h1.1,
   fun i => ⟨(h2.2 i).1.trans (h1.2 i).1, (h2.2 i).2.trans (h1.2 i).2⟩⟩

theorem setText_framePreserved (t : Str) (n : Nat) (segs : List Segment) :
    FramePreserved segs (setText t n segs) := by
  induction segs generalizing n with
  | nil => rw [setText]; exact framePreserved_refl []
  | cons s rest ih =>
    cases n with
    | zero =>
      refine ⟨by simp [setText], fun i => ?_⟩
      cases i with
      | zero => exact ⟨rfl, rfl⟩
      | succ i => exact ⟨rfl, rfl⟩
    | succ n =>
      obtain ⟨hlen, hfields⟩ := ih n
      refine ⟨by simp [setText, hlen], fun i => ?_⟩
      cases i with
      | zero => exact ⟨rfl, rfl⟩
      | succ i => exact hfields i

theorem setTexts_framePreserved (ts : List Str) (i : Nat) (segs : List Segment) :
    FramePreserved segs (setTexts i ts segs) := by
  induction ts generalizing i segs with
  | nil => exact framePreserved_refl segs
  | cons t rest ih =>
    exact framePreserved_trans (setText_framePreserved t i segs) (ih (i + 1) _)

theorem translateLoop_none_framePreserved (F : Nat → Str → Option Str) (texts : List Str)
    (total : Nat) (starts : List Nat) (k : Nat) (segs : List Segment) :
    FramePreserved segs (translateLoop F texts total none k starts segs).segs := by
  induction starts generalizing k segs with
  | nil => exact framePreserved_refl segs
  | cons i rest ih =>
    rw [translateLoop]
    simp only [isCancelled, if_false]
    exact framePreserved_trans (setTexts_framePreserved _ i segs) (ih (k + 1) _)

/-- Claim C10: in an uncancelled run of `_translate_segments`, the returned
list has the same number of segments in the same index-aligned order, where
segment `i` keeps the `start` and `end` timestamps of input segment `i`;
only the text field of each segment may change. -/
theorem translate_segments_frame (F : Nat → Str → Option Str) (k0 : Nat)
    (segs : List Segment) :
    (translate_segments F none k0 segs).segs.length = segs.length ∧
    ∀ i, ((translate_segments F none k0 segs).segs.getD i defaultSeg).start =
           (segs.getD i defaultSeg).start ∧
         ((translate_segments F none k0 segs).segs.getD i defaultSeg).endT =
           (segs.getD i defaultSeg).endT := by
  have h := translateLoop_none_framePreserved F (segs.map (fun s => s.text))
    (segs.map (fun s => s.text)).length (batchStarts (segs.map (fun s => s.text)).length)
    k0 segs
  exact ⟨h.1, h.2⟩

/-! ### Claims C6 and C7: `validate_timestamp` -/

theorem padNum_not_mem_colon (w n : Nat) : ':' ∉ padNum w n :=
  fun hm => absurd (padNum_all_digits w n ':' hm) (by decide)

theorem padNum_not_mem_comma (w n : Nat) : ',' ∉ padNum w n :=
  fun hm => absurd (padNum_all_digits w n ',' hm) (by decide)

theorem padNum_not_mem_dot (w n : Nat) : '.' ∉ padNum w n :=
  fun hm => absurd (padNum_all_digits w n '.' hm) (by decide)

theorem replaceChar_eq_self {a : Char} (b : Char) {s : Str} (h : a ∉ s) :
    replaceChar a b s = s := by
  unfold replaceChar
  rw [List.map_congr_left (g := id), List.map_id]
  intro c hc
  have : c ≠ a := fun he => h (he ▸ hc)
  simp [this]

theorem getD_nil_cases (l : List Str) (n : Nat) : l.getD n [] ∈ l ∨ l.getD n [] = [] := by
  by_cases h : n < l.length
  · left
    rw [List.getD_eq_getElem?_getD, List.getElem?_eq_getElem h]
    exact List.getElem_mem h
  · right
    rw [List.getD_eq_getElem?_getD, List.getElem?_eq_none (by omega)]
    rfl

theorem mem_pyLjust_take {c : Char} {w k : Nat} {f : Char} {s : Str}
    (h : c ∈ (pyLjust w f s).take k) : c ∈ s ∨ c = f := by
  have h1 : c ∈ pyLjust w f s := (List.take_sublist k _).mem h
  rcases List.mem_append.mp h1 with h2 | h2
  · exact Or.inl h2
  · exact Or.inr (List.eq_of_mem_replicate h2)

theorem length_msField (p2 : Str) : (msField p2).length = 3 := by
  unfold msField
  have hlj : ∀ (x : Str), ((pyLjust 3 '0' x).take 3).length = 3 := by
    intro x
    rw [List.length_take]
    unfold pyLjust
    simp
    omega
  split
  · exact hlj _
  · split
    · exact hlj _
    · rfl

theorem msField_no_comma_colon {p2 : Str} (hcl : ':' ∉ p2) :
    ',' ∉ msField p2 ∧ ':' ∉ msField p2 := by
  unfold msField
  split
  · constructor
    · intro hm
      rcases mem_pyLjust_take hm with h1 | h1
      · rcases getD_nil_cases (splitChar ',' p2) 1 with h2 | h2
        · exact not_mem_of_mem_splitChar h2 h1
        · rw [h2] at h1
          exact absurd h1 (List.not_mem_nil ',')
      · exact absurd h1 (by decide)
    · intro hm
      rcases mem_pyLjust_take hm with h1 | h1
      · rcases getD_nil_cases (splitChar ',' p2) 1 with h2 | h2
        · exact hcl (subset_of_mem_splitChar h2 ':' h1)
        · rw [h2] at h1
          exact absurd h1 (List.not_mem_nil ':')
      · exact absurd h1 (by decide)
  · rename_i hnc
    split
    · constructor
      · intro hm
        rcases mem_pyLjust_take hm with h1 | h1
        · rcases getD_nil_cases (splitChar '.' p2) 1 with h2 | h2
          · have hmm : ',' ∈ p2 := subset_of_mem_splitChar h2 ',' h1
            have hc2 : p2.contains ',' = true :=
              List.contains_iff_exists_mem_beq.mpr ⟨',', hmm, by simp⟩
            simp only [Bool.not_eq_true] at hnc
            rw [hnc] at hc2
            exact Bool.false_ne_true hc2
          · rw [h2] at h1
            exact absurd h1 (List.not_mem_nil ',')
        · exact absurd h1 (by decide)
      · intro hm
        rcases mem_pyLjust_take hm with h1 | h1
        · rcases getD_nil_cases (splitChar '.' p2) 1 with h2 | h2
          · exact hcl (subset_of_mem_splitChar h2 ':' h1)
          · rw [h2] at h1
            exact absurd h1 (List.not_mem_nil ':')
        · exact absurd h1 (by decide)
    · exact ⟨by decide, by decide⟩


theorem validate_timestamp_some_shape {ts r : Str} (h : validate_timestamp ts = some r) :
    ∃ (hn mn sn : Nat) (ms : Str), mn < 60 ∧ sn < 60 ∧ ms.length = 3 ∧
      ',' ∉ ms ∧ ':' ∉ ms ∧
      r = padNum 2 hn ++ (':' :: (padNum 2 mn ++ (':' :: (padNum 2 sn ++ (',' :: ms))))) := by
  unfold validate_timestamp at h
  split at h
  · rcases h0 : pyInt ((splitChar ':' ts).getD 0 []) with _ | hours <;> rw [h0] at h
    · exact absurd h (by simp)
    rcases h1 : pyInt ((splitChar ':' ts).getD 1 []) with _ | minutes <;> rw [h1] at h
    · exact absurd h (by simp)
    rcases h2 : secondsField ((splitChar ':' ts).getD 2 []) with _ | seconds <;> rw [h2] at h
    · exact absurd h (by simp)
    simp only [Option.some_bind] at h
    split at h
    · rename_i hcond
      rename_i hlen
      have hp2mem : (splitChar ':' ts).getD 2 [] ∈ splitChar ':' ts := by
        rw [List.getD_eq_getElem?_getD, List.getElem?_eq_getElem (by omega)]
        exact List.getElem_mem (by omega)
      have hcl : ':' ∉ (splitChar ':' ts).getD 2 [] := not_mem_of_mem_splitChar hp2mem
      obtain ⟨hnc, hncl⟩ := msField_no_comma_colon hcl
      exact ⟨hours.toNat, minutes.toNat, seconds.toNat,
             msField ((splitChar ':' ts).getD 2 []), by omega, by omega,
             length_msField _, hnc, hncl, (Option.some.inj h).symm⟩
    · exact absurd h (by simp)
  · exact absurd h (by simp)

theorem replaceChar_comma_block (sn : Nat) {ms : Str} (hcm : ',' ∉ ms) :
    replaceChar ',' '.' (padNum 2 sn ++ (',' :: ms)) = padNum 2 sn ++ ('.' :: ms) := by
  unfold replaceChar
  rw [List.map_append, List.map_cons]
  have h1 : List.map (fun c => if c = ',' then '.' else c) (padNum 2 sn) = padNum 2 sn :=
    replaceChar_eq_self '.' (padNum_not_mem_comma 2 sn)
  have h2 : List.map (fun c => if c = ',' then '.' else c) ms = ms :=
    replaceChar_eq_self '.' hcm
  rw [h1, h2, if_pos rfl]

theorem secondsField_block (sn : Nat) {ms : Str} (hcm : ',' ∉ ms) :
    secondsField (padNum 2 sn ++ (',' :: ms)) = some (sn : Int) := by
  unfold secondsField
  rw [replaceChar_comma_block sn hcm, splitChar_append (padNum_not_mem_dot 2 sn) ms]
  simp only [List.headI]
  exact pyInt_padNum 2 sn

theorem msField_block (sn : Nat) {ms : Str} (hlen : ms.length = 3) (hcm : ',' ∉ ms) :
    msField (padNum 2 sn ++ (',' :: ms)) = ms := by
  unfold msField
  have hct : (padNum 2 sn ++ (',' :: ms)).contains ',' = true :=
    List.contains_iff_exists_mem_beq.mpr ⟨',', by simp, by simp⟩
  rw [hct]
  simp only [if_true]
  rw [splitChar_append (padNum_not_mem_comma 2 sn) ms, splitChar_of_not_mem hcm]
  simp only [List.getD_cons_succ, List.getD_cons_zero]
  rw [pyLjust_eq_self (by omega), List.take_of_length_le (by omega)]

theorem validate_timestamp_of_shape (hn mn sn : Nat) (ms : Str) (hm : mn < 60)
    (hs : sn < 60) (hlen : ms.length = 3) (hcm : ',' ∉ ms) (hcl : ':' ∉ ms) :
    validate_timestamp
        (padNum 2 hn ++ (':' :: (padNum 2 mn ++ (':' :: (padNum 2 sn ++ (',' :: ms)))))) =
      some (padNum 2 hn ++ (':' :: (padNum 2 mn ++ (':' :: (padNum 2 sn ++ (',' :: ms)))))) := by
  have hp2 : ':' ∉ padNum 2 sn ++ (',' :: ms) := by
    intro hmem
    rcases List.mem_append.mp hmem with h1 | h1
    · exact padNum_not_mem_colon 2 sn h1
    · rcases List.mem_cons.mp h1 with h2 | h2
      · exact absurd h2 (by decide)
      · exact hcl h2
  have hsplit : splitChar ':'
      (padNum 2 hn ++ (':' :: (padNum 2 mn ++ (':' :: (padNum 2 sn ++ (',' :: ms)))))) =
      [padNum 2 hn, padNum 2 mn, padNum 2 sn ++ (',' :: ms)] := by
    rw [splitChar_append (padNum_not_mem_colon 2 hn),
        splitChar_append (padNum_not_mem_colon 2 mn), splitChar_of_not_mem hp2]
  unfold validate_timestamp
  rw [hsplit]
  rw [if_pos (by rfl)]
  simp only [List.getD_cons_succ, List.getD_cons_zero]
  rw [pyInt_padNum 2 hn, pyInt_padNum 2 mn, secondsField_block sn hcm]
  simp only [Option.some_bind]
  have hcond : (0 : Int) ≤ (hn : Int) ∧ (0 : Int) ≤ (mn : Int) ∧ (mn : Int) < 60 ∧
      (0 : Int) ≤ (sn : Int) ∧ (sn : Int) < 60 := by
    refine ⟨?_, ?_, ?_, ?_, ?_⟩ <;> omega
  rw [if_pos hcond, msField_block sn hlen hcm]
  simp

/-- Claim C7: `validate_timestamp` is idempotent on its own output — whenever
it returns a normalized timestamp, validating that output returns the very
same string. -/
theorem validate_timestamp_idempotent (ts r : Str) (h : validate_timestamp ts = some r) :
    validate_timestamp r = some r := by
  obtain ⟨hn, mn, sn, ms, hm, hs, hlen, hcm, hcl, rfl⟩ := validate_timestamp_some_shape h
  exact validate_timestamp_of_shape hn mn sn ms hm hs hlen hcm hcl

/-- Claim C7 witness: idempotence applied to the concrete output of
`validate_timestamp "1:2:3.5"`. -/
theorem validate_timestamp_idempotent_witness :
    validate_timestamp "01:02:03,500".data = some "01:02:03,500".data :=
  validate_timestamp_idempotent "1:2:3.5".data "01:02:03,500".data (by decide)

/-- Claim C6: `validate_timestamp` returns `none` exactly when the parsing
stage fails (`tsFields ts = none`: not exactly 3 colon-separated parts, or a
numeric part fails to parse) or a parsed field violates the ranges (hours
negative, minutes or seconds outside `[0,60)`); otherwise it returns the
timestamp normalized to zero-padded two-digit fields with a comma millisecond
separator, regardless of the input separator; and the two spec examples hold. -/
theorem validate_timestamp_characterization (ts : Str) :
    (validate_timestamp ts = none ↔
      tsFields ts = none ∨
      ∃ h m s, tsFields ts = some (h, m, s) ∧
        ¬(0 ≤ h ∧ 0 ≤ m ∧ m < 60 ∧ 0 ≤ s ∧ s < 60)) ∧
    (∀ r, validate_timestamp ts = some r →
      ∃ h m s, tsFields ts = some (h, m, s) ∧
        (0 ≤ h ∧ 0 ≤ m ∧ m < 60 ∧ 0 ≤ s ∧ s < 60) ∧
        r = padNum 2 h.toNat ++ (':' :: (padNum 2 m.toNat ++ (':' :: (padNum 2 s.toNat ++
            (',' :: msField ((splitChar ':' ts).getD 2 []))))))) ∧
    validate_timestamp "1:2:3.5".data = some "01:02:03,500".data ∧
    validate_timestamp "bad".data = none := by
  refine ⟨?_, ?_, by decide, by decide⟩
  · unfold validate_timestamp tsFields
    split
    · rcases h0 : pyInt ((splitChar ':' ts).getD 0 []) with _ | hh <;>
        simp only [h0, Option.none_bind, Option.some_bind]
      · simp
      rcases h1 : pyInt ((splitChar ':' ts).getD 1 []) with _ | mm <;>
        simp only [h1, Option.none_bind, Option.some_bind]
      · simp
      rcases h2 : secondsField ((splitChar ':' ts).getD 2 []) with _ | ss <;>
        simp only [h2, Option.none_bind, Option.some_bind]
      · simp
      by_cases hc : 0 ≤ hh ∧ 0 ≤ mm ∧ mm < 60 ∧ 0 ≤ ss ∧ ss < 60
      · rw [if_pos hc]
        simp only [reduceCtorEq, false_iff, not_or, not_exists]
        constructor
        · simp
        · intro a b c
          intro hab
          obtain ⟨he, hnc⟩ := hab
          obtain ⟨rfl, rfl, rfl⟩ := Prod.mk.injEq .. ▸ (by
            have := Option.some.inj he
            exact ⟨congrArg Prod.fst this, congrArg (fun p => p.2.1) this,
                   congrArg (fun p => p.2.2) this⟩ :
            hh = a ∧ mm = b ∧ ss = c)
          exact hnc hc
      · rw [if_neg hc]
        simp only [true_iff]
        exact Or.inr ⟨hh, mm, ss, rfl, hc⟩
    · simp
  · intro r hr
    unfold validate_timestamp at hr
    unfold tsFields
    split at hr
    · rename_i hlen
      rw [if_pos hlen]
      rcases h0 : pyInt ((splitChar ':' ts).getD 0 []) with _ | hh <;> rw [h0] at hr
      · exact absurd hr (by simp)
      rcases h1 : pyInt ((splitChar ':' ts).getD 1 []) with _ | mm <;> rw [h1] at hr
      · exact absurd hr (by simp)
      rcases h2 : secondsField ((splitChar ':' ts).getD 2 []) with _ | ss <;> rw [h2] at hr
      · exact absurd hr (by simp)
      simp only [Option.some_bind] at hr ⊢
      split at hr
      · rename_i hc
        exact ⟨hh, mm, ss, rfl, hc, (Option.some.inj hr).symm⟩
      · exact absurd hr (by simp)
    · exact absurd hr (by simp)

/-- Claim C6 witness: the positive direction of the characterization applied
to the concrete input `"1:2:3.5"` and its output `"01:02:03,500"`. -/
theorem validate_timestamp_characterization_witness :
    ∃ h m s, tsFields "1:2:3.5".data = some (h, m, s) ∧
      (0 ≤ h ∧ 0 ≤ m ∧ m < 60 ∧ 0 ≤ s ∧ s < 60) ∧
      "01:02:03,500".data = padNum 2 h.toNat ++ (':' :: (padNum 2 m.toNat ++
        (':' :: (padNum 2 s.toNat ++
          (',' :: msField ((splitChar ':' "1:2:3.5".data).getD 2 [])))))) :=
  (validate_timestamp_characterization "1:2:3.5".data).2.1 "01:02:03,500".data (by decide)

/-! ### Claim C5: SRT→VTT structure -/

theorem splitNN_sep (rest : Str) : splitNN ('\n' :: '\n' :: rest) = [] :: splitNN rest := rfl

theorem splitNN_ne_nil (l : Str) : splitNN l ≠ [] := by
  rw [splitNN.eq_def]
  split
  · simp
  · simp
  · split <;> simp

theorem splitNN_cons {c : Char} {rest : Str} (h : c ≠ '\n' ∨ rest.head? ≠ some '\n') :
    splitNN (c :: rest) = (c :: (splitNN rest).headI) :: (splitNN rest).tail := by
  rw [splitNN.eq_def]
  split
  · rename_i heq
    exact absurd heq (by simp)
  · rename_i r heq
    rw [List.cons.injEq] at heq
    obtain ⟨rfl, rfl⟩ := heq
    rcases h with h | h
    · exact absurd rfl h
    · simp at h
  · rename_i c' r hskip heq
    rw [List.cons.injEq] at heq
    obtain ⟨rfl, rfl⟩ := heq
    rcases hs : splitNN rest with _ | ⟨hd, tl⟩
    · exact absurd hs (splitNN_ne_nil rest)
    · simp [hs]

theorem splitNN_append {b : Str} (hb : hasNN b = false) (hl : b.getLast? ≠ some '\n')
    (rest : Str) :
    splitNN (b ++ '\n' :: '\n' :: rest) = b :: splitNN rest := by
  induction b with
  | nil => rfl
  | cons c b' ih =>
    cases b' with
    | nil =>
      have hc : c ≠ '\n' := by simpa using hl
      rw [List.cons_append, List.nil_append, splitNN_cons (Or.inl hc), splitNN_sep]
      simp [List.headI]
    | cons d t =>
      have hb' : (c = '\n' && d = '\n') = false ∧ hasNN (d :: t) = false := by
        rw [hasNN] at hb
        simpa using hb
      have hl' : (d :: t).getLast? ≠ some '\n' := by
        rwa [List.getLast?_cons_cons] at hl
      have hsel : c ≠ '\n' ∨ ((d :: t) ++ '\n' :: '\n' :: rest).head? ≠ some '\n' := by
        by_cases hc : c = '\n'
        · right
          subst hc
          have hd : d ≠ '\n' := by
            have := hb'.1
            simp at this
            exact this
          simpa using hd
        · exact Or.inl hc
      rw [List.cons_append, splitNN_cons hsel, ih hb'.2 hl']
      simp [List.headI]

theorem splitNN_flatten (bodies : List Str)
    (h : ∀ b ∈ bodies, hasNN b = false ∧ b.getLast? ≠ some '\n') :
    splitNN ((bodies.map (fun b => b ++ "\n\n".data)).flatten) = bodies ++ [[]] := by
  induction bodies with
  | nil => rfl
  | cons b rest ih =>
    have hb := h b (by simp)
    rw [List.map_cons, List.flatten_cons, List.append_assoc]
    rw [show ("\n\n".data ++ ((rest.map (fun b => b ++ "\n\n".data)).flatten) : Str) =
        '\n' :: '\n' :: ((rest.map (fun b => b ++ "\n\n".data)).flatten) from rfl]
    rw [splitNN_append hb.1 hb.2, ih (fun x hx => h x (List.mem_cons_of_mem b hx))]
    rfl

theorem hasNN_iff_chain (l : Str) :
    hasNN l = false ↔ l.Chain' (fun a b => ¬(a = '\n' ∧ b = '\n')) := by
  induction l with
  | nil => simp [hasNN, List.chain'_nil]
  | cons a t ih =>
    cases t with
    | nil => simp [hasNN, List.chain'_singleton]
    | cons b r =>
      rw [hasNN, List.chain'_cons, ← ih]
      constructor
      · intro h
        simp only [Bool.or_eq_false_iff, Bool.and_eq_false_iff] at h
        refine ⟨?_, h.2⟩
        intro hab
        rcases h.1 with h1 | h1 <;> simp [hab.1, hab.2] at h1
      · intro h
        simp only [Bool.or_eq_false_iff, Bool.and_eq_false_iff]
        refine ⟨?_, h.2⟩
        by_cases ha : a = '\n'
        · right
          by_cases hb2 : b = '\n'
          · exact absurd ⟨ha, hb2⟩ h.1
          · simp [hb2]
        · left
          simp [ha]

theorem chain_of_no_newline {l : Str} (h : '\n' ∉ l) :
    l.Chain' (fun a b => ¬(a = '\n' ∧ b = '\n')) := by
  induction l with
  | nil => exact List.chain'_nil
  | cons c t ih =>
    rw [List.chain'_cons']
    refine ⟨?_, ih (fun hm => h (List.mem_cons_of_mem c hm))⟩
    intro y _
    intro hab
    exact h (hab.1 ▸ List.mem_cons_self c t)

theorem digitChars_no_newline (n : Nat) : '\n' ∉ digitChars n :=
  fun hm => absurd (mem_digitChars_isDigit hm) (by decide)

theorem timingLine_no_newline {s : Segment} (h1 : '\n' ∉ s.start) (h2 : '\n' ∉ s.endT) :
    '\n' ∉ timingLine s := by
  intro hm
  unfold timingLine at hm
  rcases List.mem_append.mp hm with hx | hx
  · exact h1 hx
  · rcases List.mem_append.mp hx with hy | hy
    · exact absurd hy (by decide)
    · exact h2 hy

theorem getLast?_append_of_some {q : Str} {c : Char} (p : Str) (h : q.getLast? = some c) :
    (p ++ q).getLast? = some c := by
  simp [List.getLast?_append, h]

theorem snd_mem_of_mem_enumFrom {α : Type} {p : Nat × α} :
    ∀ {n : Nat} {l : List α}, p ∈ List.enumFrom n l → p.2 ∈ l := by
  intro n l
  induction l generalizing n with
  | nil => intro h; exact absurd h (List.not_mem_nil p)
  | cons a t ih =>
    intro h
    rw [List.enumFrom_cons] at h
    rcases List.mem_cons.mp h with rfl | hm
    · simp
    · exact List.mem_cons_of_mem a (ih hm)

theorem srtBody_getLast {idx : Nat} {s : Segment} (hg : GoodSeg s) :
    (srtBody idx s).getLast? ≠ some '\n' := by
  obtain ⟨c, hc, hcne⟩ : ∃ c, s.text.getLast? = some c ∧ c ≠ '\n' := by
    rcases htext : s.text.getLast? with _ | c
    · exact absurd (List.getLast?_eq_none_iff.mp htext) hg.2.2.1
    · exact ⟨c, rfl, fun he => hg.2.2.2.2.1 (he ▸ htext)⟩
  have h1 : ('\n' :: s.text : Str).getLast? = some c := getLast?_append_of_some ['\n'] hc
  have h2 : (timingLine s ++ ('\n' :: s.text)).getLast? = some c :=
    getLast?_append_of_some _ h1
  have h3 : ('\n' :: (timingLine s ++ ('\n' :: s.text)) : Str).getLast? = some c :=
    getLast?_append_of_some ['\n'] h2
  have h4 : (srtBody idx s).getLast? = some c := getLast?_append_of_some _ h3
  rw [h4]
  simp [hcne]

theorem head_mem_of_head? {l : Str} {c : Char} (h : l.head? = some c) : c ∈ l := by
  cases l with
  | nil => exact absurd h (by simp)
  | cons a t =>
    rw [List.head?_cons] at h
    rw [← Option.some.inj h]
    simp

theorem hasNN_append (a b : Str) :
    hasNN (a ++ b) = false ↔ hasNN a = false ∧ hasNN b = false ∧
      ∀ x ∈ a.getLast?, ∀ y ∈ b.head?, ¬(x = '\n' ∧ y = '\n') := by
  rw [hasNN_iff_chain, List.chain'_append, ← hasNN_iff_chain, ← hasNN_iff_chain]

theorem hasNN_of_no_newline {l : Str} (h : '\n' ∉ l) : hasNN l = false :=
  (hasNN_iff_chain l).mpr (chain_of_no_newline h)

theorem timingLine_ne_nil (s : Segment) : timingLine s ≠ [] := by
  intro h
  unfold timingLine at h
  have := congrArg List.length h
  simp at this

theorem srtBody_hasNN {idx : Nat} {s : Segment} (hg : GoodSeg s) :
    hasNN (srtBody idx s) = false := by
  obtain ⟨hst, hen, hne, hhd, hlast, htextNN⟩ := hg
  have htime : '\n' ∉ timingLine s := timingLine_no_newline hst hen
  have hnl4 : hasNN ('\n' :: s.text : Str) = false := by
    rw [show ('\n' :: s.text : Str) = ['\n'] ++ s.text from rfl, hasNN_append]
    refine ⟨rfl, htextNN, ?_⟩
    intro x hx y hy hab
    have : s.text.head? = some y := by simpa using hy
    exact hhd (hab.2 ▸ this)
  have hnl3 : hasNN (timingLine s ++ ('\n' :: s.text)) = false := by
    rw [hasNN_append]
    refine ⟨hasNN_of_no_newline htime, hnl4, ?_⟩
    intro x hx y hy hab
    exact htime (hab.1 ▸ List.mem_of_mem_getLast? hx)
  have hnl2 : hasNN ('\n' :: (timingLine s ++ ('\n' :: s.text)) : Str) = false := by
    rw [show ('\n' :: (timingLine s ++ ('\n' :: s.text)) : Str) =
        ['\n'] ++ (timingLine s ++ ('\n' :: s.text)) from rfl, hasNN_append]
    refine ⟨rfl, hnl3, ?_⟩
    intro x hx y hy hab
    rcases htl : timingLine s with _ | ⟨tc, tt⟩
    · exact absurd htl (timingLine_ne_nil s)
    · rw [htl, List.cons_append, List.head?_cons] at hy
      have : tc = y := by simpa using hy
      subst this
      exact htime (by rw [htl]; exact hab.2 ▸ List.mem_cons_self tc tt)
  unfold srtBody
  rw [hasNN_append]
  refine ⟨hasNN_of_no_newline (digitChars_no_newline idx), hnl2, ?_⟩
  intro x hx y hy hab
  exact absurd (hab.1 ▸ mem_digitChars_isDigit (List.mem_of_mem_getLast? hx)) (by decide)

theorem splitChar_srtBody (idx : Nat) {s : Segment} (hst : '\n' ∉ s.start)
    (hen : '\n' ∉ s.endT) :
    splitChar '\n' (srtBody idx s) =
      digitChars idx :: timingLine s :: splitChar '\n' s.text := by
  unfold srtBody
  rw [splitChar_append (digitChars_no_newline idx),
      splitChar_append (timingLine_no_newline hst hen)]

theorem pyStrip_srtBody_ne_nil (idx : Nat) (s : Segment) :
    pyStrip (srtBody idx s) ≠ [] := by
  intro h
  rcases hd : digitChars idx with _ | ⟨c, t⟩
  · exact absurd hd (digitChars_ne_nil idx)
  · have hc : c ∈ digitChars idx := by rw [hd]; simp
    have hmem : c ∈ srtBody idx s := by
      unfold srtBody
      exact List.mem_append.mpr (Or.inl hc)
    have := pyStrip_eq_nil_iff.mp h c hmem
    exact absurd this (by simpa using (isDigitChar_not_special (mem_digitChars_isDigit hc)).1)

theorem vttOfBlock_srtBody (idx : Nat) (s : Segment) (hg : GoodSeg s) :
    vttOfBlock (srtBody idx s) = vttSegBlock s := by
  unfold vttOfBlock
  rw [if_neg (pyStrip_srtBody_ne_nil idx s), splitChar_srtBody idx hg.1 hg.2.1]
  rw [if_pos ?hlen]
  case hlen =>
    rcases hsp : splitChar '\n' s.text with _ | ⟨hd, tl⟩
    · exact absurd hsp (splitChar_ne_nil '\n' s.text)
    · simp
  simp only [List.getD_cons_succ, List.getD_cons_zero, List.drop_succ_cons, List.drop_zero]
  rw [joinSep_splitChar]
  rfl

/-- Claim C5 counterexample: a segment whose text is empty produces an SRT
block of only two lines, which `save_srt_to_vtt` silently drops — the output
is the bare header, not the claimed conversion that preserves the segment
(and thus segment count is not preserved). -/
theorem srt_to_vtt_counterexample :
    save_srt_to_vtt
        (get_srt_content [⟨"00:00:01,000".data, "00:00:02,000".data, []⟩]) =
      "WEBVTT\n\n".data ∧
    save_srt_to_vtt
        (get_srt_content [⟨"00:00:01,000".data, "00:00:02,000".data, []⟩]) ≠
      "WEBVTT\n\n".data ++
        ([(⟨"00:00:01,000".data, "00:00:02,000".data, []⟩ : Segment)].map vttSegBlock).flatten := by
  constructor <;> decide

/-- Claim C5 (amended): for every segment list whose timestamps contain no
newline and whose texts are nonempty with no leading newline, no trailing
newline and no blank line, converting the SRT serialization to VTT yields
exactly the `WEBVTT` header once at the start followed by one block per
segment — index line removed, the millisecond separators in the timing line
changed from comma to dot, text unchanged — so segment count and text
content are preserved.  (Blocks of fewer than three lines — e.g. from
empty-text segments, which the counterexample exhibits — are silently
skipped, so the unrestricted claim fails.) -/
theorem srt_to_vtt_preserves (segs : List Segment) (h : ∀ s ∈ segs, GoodSeg s) :
    save_srt_to_vtt (get_srt_content segs) =
      "WEBVTT\n\n".data ++ (segs.map vttSegBlock).flatten := by
  unfold save_srt_to_vtt get_srt_content
  congr 1
  have hmap : (List.enumFrom 1 segs).map (fun p => srtBlock p.1 p.2) =
      ((List.enumFrom 1 segs).map (fun p => srtBody p.1 p.2)).map
        (fun b => b ++ "\n\n".data) := by
    rw [List.map_map]
    rfl
  have hcond : ∀ b ∈ (List.enumFrom 1 segs).map (fun p => srtBody p.1 p.2),
      hasNN b = false ∧ b.getLast? ≠ some '\n' := by
    intro b hb
    rcases List.mem_map.mp hb with ⟨p, hp, rfl⟩
    have hgs := h p.2 (snd_mem_of_mem_enumFrom hp)
    exact ⟨srtBody_hasNN hgs, srtBody_getLast hgs⟩
  rw [hmap, splitNN_flatten _ hcond, List.map_append, List.flatten_append]
  rw [show (([[]] : List Str).map vttOfBlock).flatten = [] from rfl, List.append_nil]
  rw [List.map_map]
  rw [List.map_congr_left (f := vttOfBlock ∘ fun p : Nat × Segment => srtBody p.1 p.2)
      (g := fun p : Nat × Segment => vttSegBlock p.2)
      (fun p hp => vttOfBlock_srtBody p.1 p.2 (h p.2 (snd_mem_of_mem_enumFrom hp)))]
  rw [show (fun p : Nat × Segment => vttSegBlock p.2) = vttSegBlock ∘ Prod.snd from rfl,
      ← List.map_map, List.enumFrom_map_snd]

/-- Claim C5 witness: the amended preservation theorem applied to the
concrete one-segment list of claim C8. -/
theorem srt_to_vtt_preserves_witness :
    save_srt_to_vtt (get_srt_content [exampleSeg]) =
      "WEBVTT\n\n".data ++ ([exampleSeg].map vttSegBlock).flatten :=
  srt_to_vtt_preserves [exampleSeg] (by decide)

/-! ### Claim C1: `_process_segments` timing format -/

theorem digitChars_length_le {n k : Nat} (hk : 1 ≤ k) (h : n < 10 ^ k) :
    (digitChars n).length ≤ k := by
  by_cases hn : n = 0
  · subst hn
    simpa [digitChars] using hk
  · rw [digitChars_eq, if_neg hn, List.length_map, List.length_reverse]
    by_contra hlt
    push_neg at hlt
    have h1 : 10 ^ (Nat.digits 10 n).length ≤ 10 * n :=
      Nat.base_pow_length_digits_le 10 n (by norm_num) hn
    have h2 : (10 : ℕ) ^ (k + 1) ≤ 10 ^ (Nat.digits 10 n).length :=
      Nat.pow_le_pow_right (by norm_num) hlt
    have h3 : (10 : ℕ) ^ (k + 1) = 10 * 10 ^ k := by ring
    have h4 : 10 * 10 ^ k ≤ 10 * n := by omega
    have h5 : 10 ^ k ≤ n := Nat.le_of_mul_le_mul_left h4 (by norm_num)
    omega

theorem digits_mul_pow_add :
    ∀ (k q r : Nat), q ≠ 0 → r < 10 ^ k →
      Nat.digits 10 (q * 10 ^ k + r) =
        (Nat.digits 10 r ++ List.replicate (k - (Nat.digits 10 r).length) 0) ++
          Nat.digits 10 q := by
  intro k
  induction k with
  | zero =>
    intro q r hq hr
    interval_cases r
    simp
  | succ k ih =>
    intro q r hq hr
    have h10 : (0 : ℕ) < 10 ^ (k + 1) := pow_pos (by norm_num) (k + 1)
    have hq1 : 1 ≤ q := Nat.one_le_iff_ne_zero.mpr hq
    have hqp : 0 < q * 10 ^ (k + 1) := Nat.mul_pos (by omega) h10
    have hpos : 0 < q * 10 ^ (k + 1) + r := by omega
    rw [Nat.digits_def' (by norm_num : (1:ℕ) < 10) hpos]
    have hform : q * 10 ^ (k + 1) + r = 10 * (q * 10 ^ k) + r := by ring
    have hmod : (q * 10 ^ (k + 1) + r) % 10 = r % 10 := by
      rw [hform, Nat.mul_add_mod]
    have hdiv : (q * 10 ^ (k + 1) + r) / 10 = q * 10 ^ k + r / 10 := by
      rw [hform, Nat.mul_add_div (by norm_num)]
    have hrk : r / 10 < 10 ^ k := by
      rw [Nat.div_lt_iff_lt_mul (by norm_num)]
      calc r < 10 ^ (k + 1) := hr
        _ = 10 ^ k * 10 := by ring
    rw [hmod, hdiv, ih q (r / 10) hq hrk]
    by_cases hr0 : r = 0
    · subst hr0
      simp [List.replicate_succ]
    · rw [Nat.digits_def' (by norm_num : (1:ℕ) < 10) (Nat.pos_of_ne_zero hr0)]
      simp [Nat.succ_sub_succ, List.cons_append]

theorem length_padNum_of_le {w n : Nat} (h : (digitChars n).length ≤ w) :
    (padNum w n).length = w := by
  rw [padNum, length_pyRjust]
  omega

theorem digitChars_mul_add {q r : Nat} (hq : q ≠ 0) (hr : r < 1000) :
    digitChars (q * 1000 + r) = digitChars q ++ padNum 3 r := by
  have h := digits_mul_pow_add 3 q r hq (by omega)
  have hne : q * 1000 + r ≠ 0 := by
    have h1 : 1 * 1000 ≤ q * 1000 := Nat.mul_le_mul_right 1000 (by omega)
    omega
  rw [digitChars_eq, if_neg hne,
      show q * 1000 + r = q * 10 ^ 3 + r by norm_num, h,
      List.reverse_append, List.map_append]
  congr 1
  · rw [digitChars_eq, if_neg hq]
  · rw [List.reverse_append, List.map_append, List.reverse_replicate, List.map_replicate]
    unfold padNum pyRjust
    by_cases hr0 : r = 0
    · subst hr0
      simp [digitChars]
      decide
    · rw [digitChars_eq, if_neg hr0]
      simp
      exact Or.inr (by decide)

theorem take3_padNum6 {micro : Nat} (h : micro < 1000000) :
    (padNum 6 micro).take 3 = padNum 3 (micro / 1000) := by
  by_cases hq : micro / 1000 = 0
  · have hm : micro < 1000 := by omega
    have hd : (digitChars micro).length ≤ 3 :=
      digitChars_length_le (by norm_num) (by norm_num; omega)
    unfold padNum pyRjust
    rw [List.take_append_eq_append_take, List.take_replicate, List.length_replicate]
    have hmin : min 3 (6 - (digitChars micro).length) = 3 := by omega
    rw [hmin, show 3 - (6 - (digitChars micro).length) = 0 by omega, List.take_zero,
        List.append_nil, hq]
    decide
  · have hr : micro % 1000 < 1000 := Nat.mod_lt micro (by norm_num)
    have hqlt : micro / 1000 < 1000 := by omega
    have hdq : (digitChars (micro / 1000)).length ≤ 3 :=
      digitChars_length_le (by norm_num) (by norm_num; omega)
    have hsplit : digitChars micro = digitChars (micro / 1000) ++ padNum 3 (micro % 1000) := by
      conv_lhs => rw [show micro = micro / 1000 * 1000 + micro % 1000 by omega]
      exact digitChars_mul_add hq hr
    have hp3 : (padNum 3 (micro % 1000)).length = 3 :=
      length_padNum_of_le (digitChars_length_le (by norm_num) (by norm_num; omega))
    unfold padNum pyRjust
    rw [hsplit, List.length_append, hp3]
    rw [List.take_append_eq_append_take, List.take_replicate, List.length_replicate]
    have hmin : min 3 (6 - ((digitChars (micro / 1000)).length + 3)) =
        3 - (digitChars (micro / 1000)).length := by omega
    rw [hmin, show 3 - (6 - ((digitChars (micro / 1000)).length + 3)) =
        (digitChars (micro / 1000)).length by omega]
    rw [List.take_append_eq_append_take, List.take_of_length_le (le_refl _),
        Nat.sub_self, List.take_zero, List.append_nil]

theorem take_len_sub3 {a b : Str} (hb : b.length = 6) :
    (a ++ b).take ((a ++ b).length - 3) = a ++ b.take 3 := by
  rw [List.length_append, hb, show a.length + 6 - 3 = a.length + 3 by omega,
      List.take_append_eq_append_take, List.take_of_length_le (by omega),
      Nat.add_sub_cancel_left]

theorem digitChars_no_dot (n : Nat) : '.' ∉ digitChars n :=
  fun hm => absurd (mem_digitChars_isDigit hm) (by decide)

theorem fmtTime_eq_actualHMS {us : Nat} (hd : us < 86400000000) (hf : us % 1000000 ≠ 0) :
    fmtTime us = actualHMS us := by
  have hday : us / 86400000000 = 0 := Nat.div_eq_of_lt hd
  have hmodday : us % 86400000000 = us := Nat.mod_eq_of_lt hd
  have hstr : strTimedelta us =
      digitChars (us / 3600000000) ++ (':' :: (padNum 2 (us % 3600000000 / 60000000) ++
        (':' :: (padNum 2 (us % 60000000 / 1000000) ++
          ('.' :: padNum 6 (us % 1000000)))))) := by
    unfold strTimedelta strTimedeltaCore
    rw [if_pos hday, if_neg hf, hmodday]
  have hlenH : 1 ≤ (digitChars (us / 3600000000)).length :=
    List.length_pos.mpr (digitChars_ne_nil _)
  have hlenM : (padNum 2 (us % 3600000000 / 60000000)).length = 2 :=
    length_padNum_of_le (digitChars_length_le (by norm_num) (by norm_num; omega))
  have hlenS : (padNum 2 (us % 60000000 / 1000000)).length = 2 :=
    length_padNum_of_le (digitChars_length_le (by norm_num) (by norm_num; omega))
  have hlenP : (padNum 6 (us % 1000000)).length = 6 :=
    length_padNum_of_le (digitChars_length_le (by norm_num) (by norm_num; omega))
  have hassoc : strTimedelta us =
      (digitChars (us / 3600000000) ++ (':' :: (padNum 2 (us % 3600000000 / 60000000) ++
        (':' :: (padNum 2 (us % 60000000 / 1000000) ++ ['.']))))) ++
        padNum 6 (us % 1000000) := by
    rw [hstr]
    simp [List.append_assoc]
  have hlen12 : 12 ≤ (strTimedelta us).length := by
    rw [hassoc, List.length_append, hlenP]
    simp only [List.length_append, List.length_cons]
    omega
  unfold fmtTime
  rw [pyRjust_eq_self hlen12, hassoc, take_len_sub3 hlenP, take3_padNum6 (by omega)]
  have hback : (digitChars (us / 3600000000) ++ (':' :: (padNum 2 (us % 3600000000 / 60000000) ++
        (':' :: (padNum 2 (us % 60000000 / 1000000) ++ ['.']))))) ++
        padNum 3 (us % 1000000 / 1000) =
      digitChars (us / 3600000000) ++ (':' :: (padNum 2 (us % 3600000000 / 60000000) ++
        (':' :: (padNum 2 (us % 60000000 / 1000000) ++
          ('.' :: padNum 3 (us % 1000000 / 1000)))))) := by
    simp [List.append_assoc]
  rw [hback]
  have hdh : List.map (fun c => if c = '.' then ',' else c) (digitChars (us / 3600000000)) =
      digitChars (us / 3600000000) := replaceChar_eq_self ',' (digitChars_no_dot _)
  have hm2 : List.map (fun c => if c = '.' then ',' else c)
      (padNum 2 (us % 3600000000 / 60000000)) = padNum 2 (us % 3600000000 / 60000000) :=
    replaceChar_eq_self ',' (padNum_not_mem_dot _ _)
  have hs2 : List.map (fun c => if c = '.' then ',' else c)
      (padNum 2 (us % 60000000 / 1000000)) = padNum 2 (us % 60000000 / 1000000) :=
    replaceChar_eq_self ',' (padNum_not_mem_dot _ _)
  have hp3 : List.map (fun c => if c = '.' then ',' else c)
      (padNum 3 (us % 1000000 / 1000)) = padNum 3 (us % 1000000 / 1000) :=
    replaceChar_eq_self ',' (padNum_not_mem_dot _ _)
  unfold replaceChar actualHMS
  rw [List.map_append, List.map_cons, List.map_append, List.map_cons, List.map_append,
      List.map_cons, hdh, hm2, hs2, hp3, if_neg (by decide : ¬(':' : Char) = '.'),
      if_pos rfl]

theorem processSegsAux_none_aborted (tf : Bool) (total k idx : Nat) (raw : List RawSeg) :
    (processSegsAux tf total none k idx raw).aborted = false := by
  induction raw generalizing k idx with
  | nil => rfl
  | cons r rest ih =>
    rw [processSegsAux]
    simp only [isCancelled, if_false]
    exact ih (k + 1) (idx + 1)

theorem processSegsAux_none_segs (tf : Bool) (total k idx : Nat) (raw : List RawSeg) :
    (processSegsAux tf total none k idx raw).segs =
      raw.map (fun r => ⟨fmtTime r.start, fmtTime r.endT, pyStrip r.text⟩) := by
  induction raw generalizing k idx with
  | nil => rfl
  | cons r rest ih =>
    rw [processSegsAux, List.map_cons]
    simp only [isCancelled, if_false]
    rw [processSegsAux_none_aborted]
    simp only [Bool.false_eq_true, if_false]
    rw [ih (k + 1) (idx + 1)]

/-- Claim C1 counterexample: for the raw segment with start 1.5 s (whose
`timedelta` value is 1 500 000 µs), `_process_segments` produces the start
string `"0:00:01,500"` — a single unpadded hour digit — and not the
`HH:MM:SS,mmm` two-digit zero-padded rendering `"00:00:01,500"` the claim
requires. -/
theorem process_segments_pad_counterexample :
    ((process_segments false none 0
        [⟨1500000, 2500000, " Hi ".data⟩]).segs.getD 0 defaultSeg).start =
      "0:00:01,500".data ∧
    specHMS 1500000 = "00:00:01,500".data ∧
    "0:00:01,500".data ≠ "00:00:01,500".data := by
  refine ⟨by decide, by decide, by decide⟩

/-- Claim C1 (amended): in an uncancelled run, for raw segments whose start
and end times are below one day and have a nonzero microsecond remainder,
`_process_segments` returns records whose start and end are the time rendered
as `H:MM:SS,mmm` — minutes, seconds and milliseconds zero-padded, but the
hours written without zero padding (one digit below ten hours) — and whose
text is the input text with surrounding whitespace removed.  (For times with
a zero microsecond remainder the formatter degenerates further, e.g.
`str(timedelta)` of a whole second has no fractional part and the
`rjust(12)[:-3]` slicing then corrupts the string, so the unrestricted claim
fails there too.) -/
theorem process_segments_amended (tf : Bool) (k0 : Nat) (raw : List RawSeg)
    (h : ∀ r ∈ raw, r.start < 86400000000 ∧ r.start % 1000000 ≠ 0 ∧
         r.endT < 86400000000 ∧ r.endT % 1000000 ≠ 0) :
    (process_segments tf none k0 raw).segs =
      raw.map (fun r => ⟨actualHMS r.start, actualHMS r.endT, pyStrip r.text⟩) := by
  unfold process_segments
  rw [processSegsAux_none_segs]
  exact List.map_congr_left (fun r hr =>
    congrArg₂ (fun a b => Segment.mk a b (pyStrip r.text))
      (fmtTime_eq_actualHMS (h r hr).1 (h r hr).2.1)
      (fmtTime_eq_actualHMS (h r hr).2.2.1 (h r hr).2.2.2))

/-- Claim C1 witness: the amended statement evaluated on a concrete raw
segment list (start 1.5 s, end 2.5 s, text `" Hi "`). -/
theorem process_segments_amended_witness :
    (process_segments false none 0 [⟨1500000, 2500000, " Hi ".data⟩]).segs =
      [⟨actualHMS 1500000, actualHMS 2500000, pyStrip " Hi ".data⟩] :=
  process_segments_amended false 0 [⟨1500000, 2500000, " Hi ".data⟩] (by decide)

/-! ### Claim C3: cancellation never completes -/

theorem isCancelled_mono {cAt : Option Nat} {j j' : Nat} (h : isCancelled cAt j = true)
    (hle : j ≤ j') : isCancelled cAt j' = true := by
  cases cAt with
  | none => simpa [isCancelled] using h
  | some c =>
    simp only [isCancelled, decide_eq_true_eq] at h ⊢
    omega

theorem processSegsAux_events_ok (tf : Bool) (total : Nat) (cAt : Option Nat) :
    ∀ (k idx : Nat) (raw : List RawSeg), idx + raw.length ≤ total →
      ∀ e ∈ (processSegsAux tf total cAt k idx raw).events, EvOK e := by
  intro k idx raw
  induction raw generalizing k idx with
  | nil => intro _ e he; exact absurd he (List.not_mem_nil e)
  | cons r rest ih =>
    intro hinv e he
    rw [List.length_cons] at hinv
    by_cases hc : isCancelled cAt k = true
    · rw [processSegsAux, if_pos hc] at he
      exact absurd he (List.not_mem_nil e)
    · rw [processSegsAux, if_neg hc] at he
      have he2 : e ∈ (if tf then []
          else [Event.progress (65 + (idx + 1) * 30 / total) (procMsg (idx + 1) total)]) ++
          (processSegsAux tf total cAt (k + 1) (idx + 1) rest).events := he
      rcases List.mem_append.mp he2 with hl | hr
      · rcases htf : tf with _ | _
        · rw [htf] at hl
          simp only [Bool.false_eq_true, if_false] at hl
          rcases List.mem_cons.mp hl with rfl | hnil
          · refine ⟨_, _, rfl, ?_, ?_⟩
            · have htot : 0 < total := by omega
              have hmul : (idx + 1) * 30 ≤ total * 30 :=
                Nat.mul_le_mul_right 30 (by omega)
              have hdiv : (idx + 1) * 30 / total ≤ total * 30 / total :=
                Nat.div_le_div_right hmul
              rw [Nat.mul_div_cancel_left 30 htot] at hdiv
              omega
            · intro hh
              have hhead : (procMsg (idx + 1) total).head? = some 'P' := rfl
              rw [hhead] at hh
              exact absurd (Option.some.inj hh) (by decide)
          · exact absurd hnil (List.not_mem_nil e)
        · rw [htf] at hl
          simp only [if_true] at hl
          exact absurd hl (List.not_mem_nil e)
      · exact ih (k + 1) (idx + 1) (by omega) e hr

theorem processSegsAux_k_of_not_aborted (tf : Bool) (total : Nat) (cAt : Option Nat) :
    ∀ (k idx : Nat) (raw : List RawSeg),
      (processSegsAux tf total cAt k idx raw).aborted = false →
      (processSegsAux tf total cAt k idx raw).k = k + raw.length := by
  intro k idx raw
  induction raw generalizing k idx with
  | nil => intro _; rfl
  | cons r rest ih =>
    intro hab
    by_cases hc : isCancelled cAt k = true
    · rw [processSegsAux, if_pos hc] at hab
      exact absurd hab (by simp)
    · rw [processSegsAux, if_neg hc] at hab ⊢
      have hab2 : (processSegsAux tf total cAt (k + 1) (idx + 1) rest).aborted = false := hab
      show (processSegsAux tf total cAt (k + 1) (idx + 1) rest).k = k + (r :: rest).length
      rw [ih (k + 1) (idx + 1) hab2, List.length_cons]
      omega

theorem processSegsAux_segs_length_of_not_aborted (tf : Bool) (total : Nat)
    (cAt : Option Nat) :
    ∀ (k idx : Nat) (raw : List RawSeg),
      (processSegsAux tf total cAt k idx raw).aborted = false →
      (processSegsAux tf total cAt k idx raw).segs.length = raw.length := by
  intro k idx raw
  induction raw generalizing k idx with
  | nil => intro _; rfl
  | cons r rest ih =>
    intro hab
    by_cases hc : isCancelled cAt k = true
    · rw [processSegsAux, if_pos hc] at hab
      exact absurd hab (by simp)
    · rw [processSegsAux, if_neg hc] at hab ⊢
      have hab2 : (processSegsAux tf total cAt (k + 1) (idx + 1) rest).aborted = false := hab
      show (if (processSegsAux tf total cAt (k + 1) (idx + 1) rest).aborted = true then []
            else Segment.mk (fmtTime r.start) (fmtTime r.endT) (pyStrip r.text) ::
              (processSegsAux tf total cAt (k + 1) (idx + 1) rest).segs).length =
          (r :: rest).length
      rw [hab2]
      simp only [Bool.false_eq_true, if_false, List.length_cons]
      rw [ih (k + 1) (idx + 1) hab2]

theorem processSegsAux_abort (tf : Bool) (total : Nat) (cAt : Option Nat) :
    ∀ (k idx : Nat) (raw : List RawSeg),
      (processSegsAux tf total cAt k idx raw).aborted = true →
      isCancelled cAt (processSegsAux tf total cAt k idx raw).k = true := by
  intro k idx raw
  induction raw generalizing k idx with
  | nil => intro h; exact absurd h (by simp [processSegsAux])
  | cons r rest ih =>
    intro hab
    by_cases hc : isCancelled cAt k = true
    · rw [processSegsAux, if_pos hc]
      show isCancelled cAt (k + 1) = true
      exact isCancelled_mono hc (by omega)
    · rw [processSegsAux, if_neg hc] at hab ⊢
      exact ih (k + 1) (idx + 1) hab

theorem batchSize_pos (n : Nat) : 0 < batchSize n := by
  unfold batchSize
  omega

theorem mem_batchStarts_lt {n i : Nat} (h : i ∈ batchStarts n) : i < n := by
  unfold batchStarts at h
  rcases List.mem_map.mp h with ⟨j, hj, rfl⟩
  rw [List.mem_range] at hj
  have hbs := batchSize_pos n
  have hn : 0 < n := by
    rcases Nat.eq_zero_or_pos n with rfl | hp
    · norm_num [batchSize] at hj
    · exact hp
  have hj1 : j + 1 ≤ (n + batchSize n - 1) / batchSize n := hj
  have hmul : (j + 1) * batchSize n ≤ (n + batchSize n - 1) / batchSize n * batchSize n :=
    Nat.mul_le_mul_right _ hj1
  have hle : (n + batchSize n - 1) / batchSize n * batchSize n ≤ n + batchSize n - 1 :=
    Nat.div_mul_le_self _ _
  have hsplit : (j + 1) * batchSize n = j * batchSize n + batchSize n := by ring
  omega

theorem length_batchStarts (n : Nat) : (batchStarts n).length = numBatches n := by
  unfold batchStarts numBatches
  simp

theorem translateLoop_events_ok (F : Nat → Str → Option Str) (texts : List Str)
    (total : Nat) (cAt : Option Nat) :
    ∀ (k : Nat) (starts : List Nat) (segs : List Segment),
      (∀ i ∈ starts, i < total) →
      ∀ e ∈ (translateLoop F texts total cAt k starts segs).events, EvOK e := by
  intro k starts segs
  induction starts generalizing k segs with
  | nil => intro _ e he; exact absurd he (List.not_mem_nil e)
  | cons i rest ih =>
    intro hlt e he
    by_cases hc : isCancelled cAt k = true
    · rw [translateLoop, if_pos hc] at he
      exact absurd he (List.not_mem_nil e)
    · rw [translateLoop, if_neg hc] at he
      rcases List.mem_cons.mp he with rfl | hr
      · refine ⟨_, _, rfl, ?_, ?_⟩
        · have hi : i < total := hlt i (by simp)
          have hmul : i * 25 ≤ total * 25 := Nat.mul_le_mul_right 25 (by omega)
          have hdiv : i * 25 / total ≤ total * 25 / total := Nat.div_le_div_right hmul
          rw [Nat.mul_div_cancel_left 25 (by omega)] at hdiv
          omega
        · intro hh
          have hhead : (transMsg i ((texts.drop i).take (batchSize total)).length
              total).head? = some 'T' := rfl
          rw [hhead] at hh
          exact absurd (Option.some.inj hh) (by decide)
      · exact ih (k + 1) _ (fun j hj => hlt j (List.mem_cons_of_mem i hj)) e hr

theorem translateLoop_k_of_not_aborted (F : Nat → Str → Option Str) (texts : List Str)
    (total : Nat) (cAt : Option Nat) :
    ∀ (k : Nat) (starts : List Nat) (segs : List Segment),
      (translateLoop F texts total cAt k starts segs).aborted = false →
      (translateLoop F texts total cAt k starts segs).k = k + starts.length := by
  intro k starts segs
  induction starts generalizing k segs with
  | nil => intro _; rfl
  | cons i rest ih =>
    intro hab
    by_cases hc : isCancelled cAt k = true
    · rw [translateLoop, if_pos hc] at hab
      exact absurd hab (by simp)
    · rw [translateLoop, if_neg hc] at hab ⊢
      have hab2 : (translateLoop F texts total cAt (k + 1) rest
          (setTexts i (translate_batch (fun j t => F (i + j) t)
            ((texts.drop i).take (batchSize total))) segs)).aborted = false := hab
      show (translateLoop F texts total cAt (k + 1) rest _).k = k + (i :: rest).length
      rw [ih (k + 1) _ hab2, List.length_cons]
      omega

theorem translateLoop_abort (F : Nat → Str → Option Str) (texts : List Str)
    (total : Nat) (cAt : Option Nat) :
    ∀ (k : Nat) (starts : List Nat) (segs : List Segment),
      (translateLoop F texts total cAt k starts segs).aborted = true →
      isCancelled cAt (translateLoop F texts total cAt k starts segs).k = true := by
  intro k starts segs
  induction starts generalizing k segs with
  | nil => intro h; exact absurd h (by simp [translateLoop])
  | cons i rest ih =>
    intro hab
    by_cases hc : isCancelled cAt k = true
    · rw [translateLoop, if_pos hc]
      show isCancelled cAt (k + 1) = true
      exact isCancelled_mono hc (by omega)
    · rw [translateLoop, if_neg hc] at hab ⊢
      exact ih (k + 1) _ hab

theorem selectModelSize_snd_ok (cuda : Bool) (mem : ℚ) (str : Str) :
    EvOK (selectModelSize cuda mem str).2 := by
  cases cuda with
  | false => exact ⟨15, _, rfl, by norm_num, by decide⟩
  | true =>
    refine ⟨15, _, rfl, by norm_num, ?_⟩
    intro hh
    have hh2 : (some 'U' : Option Char) = some 'C' := hh
    exact absurd (Option.some.inj hh2) (by decide)

theorem preEvents_ok (p : RunParams) : ∀ e ∈ preEvents p, EvOK e := by
  intro e he
  unfold preEvents at he
  rcases List.mem_cons.mp he with rfl | he
  · exact ⟨5, _, rfl, by norm_num, by decide⟩
  rcases List.mem_cons.mp he with rfl | he
  · exact selectModelSize_snd_ok p.cuda p.gpuMem p.gpuMemStr
  rcases List.mem_cons.mp he with rfl | he
  · refine ⟨10, _, rfl, by norm_num, ?_⟩
    intro hh
    have hh2 : (some 'L' : Option Char) = some 'C' := hh
    exact absurd (Option.some.inj hh2) (by decide)
  · exact absurd he (List.not_mem_nil e)

theorem pre2Events_ok (p : RunParams) : ∀ e ∈ pre2Events p, EvOK e := by
  intro e he
  unfold pre2Events at he
  rcases List.mem_append.mp he with he | he
  · exact preEvents_ok p e he
  rcases List.mem_cons.mp he with rfl | he
  · exact ⟨30, _, rfl, by norm_num, by decide⟩
  rcases List.mem_cons.mp he with rfl | he
  · by_cases hsl : p.sourceLanguage ≠ "auto".data
    · rw [if_pos hsl]
      refine ⟨35, _, rfl, by norm_num, ?_⟩
      intro hh
      have hh2 : (some 'T' : Option Char) = some 'C' := hh
      exact absurd (Option.some.inj hh2) (by decide)
    · rw [if_neg hsl]
      exact ⟨35, _, rfl, by norm_num, by decide⟩
  · exact absurd he (List.not_mem_nil e)

theorem pre3Events_ok (p : RunParams) (cAt : Option Nat) :
    ∀ e ∈ pre3Events p cAt, EvOK e := by
  intro e he
  unfold pre3Events at he
  rcases List.mem_append.mp he with he | he
  · rcases List.mem_append.mp he with he | he
    · exact pre2Events_ok p e he
    rcases List.mem_cons.mp he with rfl | he
    · exact ⟨60, _, rfl, by norm_num, by decide⟩
    rcases List.mem_cons.mp he with rfl | he
    · refine ⟨65, _, rfl, by norm_num, ?_⟩
      intro hh
      have hh2 : (some 'D' : Option Char) = some 'C' := hh
      exact absurd (Option.some.inj hh2) (by decide)
    · exact absurd he (List.not_mem_nil e)
  · exact processSegsAux_events_ok p.translate p.rawSegments.length cAt 2 0
      p.rawSegments (by omega) e he

theorem translate_segments_events_ok (F : Nat → Str → Option Str) (cAt : Option Nat)
    (k0 : Nat) (segs : List Segment) :
    ∀ e ∈ (translate_segments F cAt k0 segs).events, EvOK e := by
  intro e he
  have he2 : e ∈ Event.progress 70 "Starting translation...".data ::
      ((translateLoop F (segs.map (fun s => s.text)) (segs.map (fun s => s.text)).length cAt
          k0 (batchStarts (segs.map (fun s => s.text)).length) segs).events ++
        if (translateLoop F (segs.map (fun s => s.text)) (segs.map (fun s => s.text)).length cAt
            k0 (batchStarts (segs.map (fun s => s.text)).length) segs).aborted then []
        else [Event.progress 95 "Translation completed.".data]) := he
  rcases List.mem_cons.mp he2 with rfl | he3
  · exact ⟨70, _, rfl, by norm_num, by decide⟩
  rcases List.mem_append.mp he3 with he4 | he4
  · exact translateLoop_events_ok F _ _ cAt k0 _ segs
      (fun i hi => mem_batchStarts_lt hi) e he4
  · split at he4
    · exact absurd he4 (List.not_mem_nil e)
    · rcases List.mem_cons.mp he4 with rfl | he5
      · exact ⟨95, _, rfl, by norm_num, by decide⟩
      · exact absurd he5 (List.not_mem_nil e)

theorem runTrans_aborted (p : RunParams) (cAt : Option Nat) :
    (runTrans p cAt).aborted =
      (translateLoop p.oracle ((runProc p cAt).segs.map (fun s => s.text))
        ((runProc p cAt).segs.map (fun s => s.text)).length cAt ((runProc p cAt).k + 1)
        (batchStarts ((runProc p cAt).segs.map (fun s => s.text)).length)
        (runProc p cAt).segs).aborted := rfl

theorem runTrans_k (p : RunParams) (cAt : Option Nat) :
    (runTrans p cAt).k =
      (translateLoop p.oracle ((runProc p cAt).segs.map (fun s => s.text))
        ((runProc p cAt).segs.map (fun s => s.text)).length cAt ((runProc p cAt).k + 1)
        (batchStarts ((runProc p cAt).segs.map (fun s => s.text)).length)
        (runProc p cAt).segs).k := rfl

theorem run_cancelled_events_ok (p : RunParams) (c : Nat) (h1 : 2 ≤ c)
    (h2 : c ≤ lastCheck p) : ∀ e ∈ run p (some c), EvOK e := by
  intro e he
  unfold run at he
  rw [if_neg (show ¬isCancelled (some c) 0 = true by
        simp only [isCancelled, decide_eq_true_eq]; omega),
      if_neg (show ¬isCancelled (some c) 1 = true by
        simp only [isCancelled, decide_eq_true_eq]; omega)] at he
  by_cases hpk : isCancelled (some c) (runProc p (some c)).k = true
  · rw [if_pos hpk] at he
    exact pre3Events_ok p _ e he
  · rw [if_neg hpk] at he
    have habort : (runProc p (some c)).aborted = false := by
      rcases hab : (runProc p (some c)).aborted with _ | _
      · rfl
      · exact absurd (processSegsAux_abort p.translate p.rawSegments.length (some c)
          2 0 p.rawSegments hab) hpk
    have hk : (runProc p (some c)).k = 2 + p.rawSegments.length :=
      processSegsAux_k_of_not_aborted p.translate p.rawSegments.length (some c)
        2 0 p.rawSegments habort
    have hc2 : ¬c ≤ 2 + p.rawSegments.length := by
      intro hle
      apply hpk
      rw [hk]
      simp only [isCancelled, decide_eq_true_eq]
      exact hle
    by_cases htr : (p.translate && targetTruthy p.targetLanguage) = true
    · rw [if_pos htr] at he
      by_cases htk : isCancelled (some c) (runTrans p (some c)).k = true
      · rw [if_pos htk] at he
        rcases List.mem_append.mp he with he2 | he2
        · exact pre3Events_ok p _ e he2
        · exact translate_segments_events_ok p.oracle (some c) _ _ e he2
      · exfalso
        rw [runTrans_k] at htk
        have htab : (translateLoop p.oracle ((runProc p (some c)).segs.map (fun s => s.text))
            ((runProc p (some c)).segs.map (fun s => s.text)).length (some c)
            ((runProc p (some c)).k + 1)
            (batchStarts ((runProc p (some c)).segs.map (fun s => s.text)).length)
            (runProc p (some c)).segs).aborted = false := by
          rcases hab : (translateLoop p.oracle ((runProc p (some c)).segs.map (fun s => s.text))
              ((runProc p (some c)).segs.map (fun s => s.text)).length (some c)
              ((runProc p (some c)).k + 1)
              (batchStarts ((runProc p (some c)).segs.map (fun s => s.text)).length)
              (runProc p (some c)).segs).aborted with _ | _
          · exact hab
          · exact absurd (translateLoop_abort p.oracle _ _ (some c) _ _ _ hab) htk
        have hsegLen : (runProc p (some c)).segs.length = p.rawSegments.length :=
          processSegsAux_segs_length_of_not_aborted p.translate p.rawSegments.length
            (some c) 2 0 p.rawSegments habort
        have hloopk := translateLoop_k_of_not_aborted p.oracle
          ((runProc p (some c)).segs.map (fun s => s.text))
          ((runProc p (some c)).segs.map (fun s => s.text)).length (some c)
          ((runProc p (some c)).k + 1)
          (batchStarts ((runProc p (some c)).segs.map (fun s => s.text)).length)
          (runProc p (some c)).segs htab
        apply htk
        rw [hloopk, length_batchStarts, List.length_map, hsegLen, hk]
        simp only [isCancelled, decide_eq_true_eq]
        have hlast : lastCheck p =
            p.rawSegments.length + 3 + numBatches p.rawSegments.length := by
          simp only [lastCheck, htr, if_true]
        omega
    · exfalso
      have hlast : lastCheck p = p.rawSegments.length + 2 := by
        simp only [lastCheck]
        rw [if_neg htr]
      omega

/-- Claim C3: if the cancellation flag becomes set at a check that happens
after the 60% milestone has been emitted (check index at least 2: the checks
from index 2 on all lie after the 60% emission) and no later than the run's
final check, then the combined event trace — the run's own events plus the
one event `cancel()` emits — contains no completion signal and no 100%
progress event; it does contain the dedicated `"Cancelling operation..."`
progress message, and that message is distinct from every message the run
itself emits. -/
theorem run_cancelled_no_completion (p : RunParams) (c : Nat) (h1 : 2 ≤ c)
    (h2 : c ≤ lastCheck p) :
    (∀ segs, Event.complete segs ∉ run p (some c) ++ cancelEvents) ∧
    (∀ msg, Event.progress 100 msg ∉ run p (some c) ++ cancelEvents) ∧
    Event.progress 0 cancelMsg ∈ run p (some c) ++ cancelEvents ∧
    (∀ pct msg, Event.progress pct msg ∈ run p (some c) → msg ≠ cancelMsg) := by
  have hok := run_cancelled_events_ok p c h1 h2
  refine ⟨?_, ?_, ?_, ?_⟩
  · intro segs hm
    rcases List.mem_append.mp hm with hm | hm
    · obtain ⟨pct, msg, he, _, _⟩ := hok _ hm
      exact absurd he (by simp)
    · simp [cancelEvents] at hm
  · intro msg hm
    rcases List.mem_append.mp hm with hm | hm
    · obtain ⟨pct, msg', he, hp, _⟩ := hok _ hm
      have h100 : (100 : Nat) = pct := by
        have := congrArg (fun e => match e with
          | Event.progress q _ => q
          | _ => 0) he
        simpa using this
      omega
    · simp [cancelEvents] at hm
  · exact List.mem_append_right _ (by simp [cancelEvents])
  · intro pct msg hm heq
    obtain ⟨pct', msg', he, _, hh⟩ := hok _ hm
    have hmsg : msg = msg' := by
      have := congrArg (fun e => match e with
        | Event.progress _ m => m
        | _ => []) he
      simpa using this
    apply hh
    rw [← hmsg, heq]
    rfl

/-- Claim C3 witness: a concrete run (no translation, one raw segment, so
the final check has index 3) cancelled at check 3: no completion signal, no
100% progress, and the cancellation acknowledgement is in the trace. -/
theorem run_cancelled_no_completion_witness :
    Event.complete [] ∉ run sampleRunParams (some 3) ++ cancelEvents ∧
    Event.progress 100 "Complete!".data ∉ run sampleRunParams (some 3) ++ cancelEvents ∧
    Event.progress 0 cancelMsg ∈ run sampleRunParams (some 3) ++ cancelEvents := by
  have h := run_cancelled_no_completion sampleRunParams 3 (by norm_num) (by decide)
  exact ⟨h.1 [], h.2.1 "Complete!".data, h.2.2.1⟩
